import Mathlib

/-!
Shallow embedding of the incremental hierarchical reconciliation engine of
the Panora repository, centred on
`packages/api/src/filestorage/folder/services/googledrive/index.ts`
(`GoogleDriveFolderService`) and
`packages/api/src/crm/stage/services/zendesk/mappers.ts`
(`ZendeskStageMapper`).

Modelling conventions:
* JavaScript `Map` objects become association lists with `jsMapGet` /
  `jsMapSet`, reproducing insertion order and last-write-wins semantics.
* `uuidv4()` is modelled by a run-local counter producing `Ident.minted n`;
  the constructor is disjoint from `Ident.stored` (ids read back from the
  database), which captures the freshness assumption of uuid generation.
* The Prisma store `fs_folders` is a list of rows queried with `findFirst`.
* Remote Google Drive calls (`drive.files.get`, `drive.files.list`) are
  oracles supplied as parameters (association list / page list).
* `async` concurrency (`Promise.all`) is sequentialised in program order.
* Potentially non-terminating loops driven by remote data are given explicit
  fuel; fuel exhaustion is recorded in the `completed` flag of the state so
  that termination on a given input is an observable fact of the model.
-/

namespace Panora

/-- Internal identities minted or read from the store.  `uuidv4()` freshness
is modelled by `minted` applied to a run-local counter; `stored` is an
`id_fs_folder` read from the database; `root` is the literal string marker
`'root'` that `resolveParentId` returns for root-equivalent parents. -/
inductive Ident where
  | root
  | stored (s : String)
  | minted (n : Nat)
  deriving DecidableEq, Repr

/-- A Google Drive permission object (field `id` plus an opaque payload
standing for the remaining attributes). -/
structure GPermission where
  id : String
  payload : String
  deriving DecidableEq, Repr

/-- `GoogleDriveFolderOutput`: the remote folder record plus the internal
fields the service fills in.  The TS code overwrites `permissions` in place
with the synced permission ids; the model keeps the rewritten ids in the
separate field `permission_ids`. -/
structure GFolder where
  id : String
  name : String
  parents : List String
  driveId : String
  permissions : List GPermission
  permission_ids : List String
  internal_id : Option Ident
  internal_parent_folder_id : Option Ident
  deriving DecidableEq, Repr

/-- A row of the Prisma `fs_folders` table (the fields the service reads). -/
structure FsFolderRow where
  remote_id : String
  id_connection : String
  id_fs_folder : String
  remote_modified_at : Nat
  deriving DecidableEq, Repr

/-- `map.get(k)` on a JavaScript `Map` represented as an association list. -/
def jsMapGet {α : Type} (m : List (String × α)) (k : String) : Option α :=
  (m.find? (fun kv => kv.1 == k)).map (fun kv => kv.2)

/-- `map.set(k, v)`: overwrite the entry in place when the key exists
(keeping its position), otherwise append — JavaScript `Map` insertion-order
semantics.  (Maps are only ever built by `jsMapSet` starting from `[]`, so
keys never repeat and replacing the first occurrence is exact.) -/
def jsMapSet {α : Type} : List (String × α) → String → α → List (String × α)
  | [], k, v => [(k, v)]
  | kv :: rest, k, v =>
    if kv.1 == k then (k, v) :: rest else kv :: jsMapSet rest k v

/-- `prisma.fs_folders.findFirst({where: {remote_id, id_connection}})`
projected to `id_fs_folder`. -/
def findFolder (db : List FsFolderRow) (remoteId connectionId : String) :
    Option String :=
  (db.find? (fun r => r.remote_id == remoteId && r.id_connection == connectionId)).map
    (fun r => r.id_fs_folder)

/-- `folder.parents?.[0] || 'root'`. -/
def remoteParentKey (f : GFolder) : String :=
  f.parents.head?.getD "root"

/-- The environment of one incremental resolution run: the persisted store,
the connection id, the known drive ids, and the `drive.files.get` oracle
used by the fallback ancestor walk (an absent key models a failing call,
which the TS code catches and turns into `null`). -/
structure Env where
  db : List FsFolderRow
  connectionId : String
  driveIds : List String
  provider : List (String × GFolder)

/-- The mutable state of `processFoldersWithParents`:
`folderIdToInternalIdMap`, `foldersToSync`, `parentLookupCache`, the uuid
counter, the logged warnings, whether `handleUnresolvedFolders` ran, and
whether every fuelled loop completed within its fuel. -/
structure ResolveState where
  idMap : List (String × Ident)
  output : List GFolder
  cache : List (String × Option Ident)
  ctr : Nat
  warnings : List String
  usedFallback : Bool
  completed : Bool
  deriving DecidableEq, Repr

def initResolveState : ResolveState :=
  { idMap := [], output := [], cache := [], ctr := 0, warnings := [],
    usedFallback := false, completed := true }

/-- `resolveParentId`: check the resolved-this-run map, then the known
drive/root identifiers (returning the `'root'` marker), then the negative
cache, then the store (caching the result). -/
def resolveParentId (db : List FsFolderRow) (connectionId : String)
    (parentId : String) (idMap : List (String × Ident)) (driveIds : List String)
    (cache : List (String × Option Ident)) :
    Option Ident × List (String × Option Ident) :=
  match jsMapGet idMap parentId with
  | some v => (some v, cache)
  | none =>
    if driveIds.contains parentId || parentId == "root" then
      (some Ident.root, cache)
    else
      match jsMapGet cache parentId with
      | some cached => (cached, cache)
      | none =>
        let result := (findFolder db parentId connectionId).map Ident.stored
        (result, jsMapSet cache parentId result)

/-- `getIntenalIdForFolder` (sic): reuse the persisted `id_fs_folder` when
the folder exists for the connection, otherwise mint a fresh uuid. -/
def getIntenalIdForFolder (db : List FsFolderRow) (connectionId folderId : String)
    (ctr : Nat) : Ident × Nat :=
  match findFolder db folderId connectionId with
  | some i => (Ident.stored i, ctr)
  | none => (Ident.minted ctr, ctr + 1)

/-- `createFolderWithInternalIds`: the `'root'` marker becomes `null`. -/
def createFolderWithInternalIds (folder : GFolder) (internalParentId : Ident)
    (internalId : Ident) : GFolder :=
  { folder with
    internal_parent_folder_id :=
      if internalParentId == Ident.root then none else some internalParentId,
    internal_id := some internalId }

/-- `isStuckInLoop`: a pass that resolved nothing. -/
def isStuckInLoop (pending remaining : List GFolder) : Bool :=
  pending.length == remaining.length

/-- One pass of the `for (const folder of remainingFolders)` loop: returns
the still-pending folders and the updated state. -/
def processPass (env : Env) :
    List GFolder → ResolveState → List GFolder × ResolveState
  | [], st => ([], st)
  | folder :: rest, st =>
    match resolveParentId env.db env.connectionId (remoteParentKey folder)
        st.idMap env.driveIds st.cache with
    | (some ipid, cache') =>
      let fid := (getIntenalIdForFolder env.db env.connectionId folder.id st.ctr).1
      let ctr' := (getIntenalIdForFolder env.db env.connectionId folder.id st.ctr).2
      let f' := createFolderWithInternalIds folder ipid fid
      processPass env rest
        { st with
          output := st.output ++ [f'],
          idMap := jsMapSet st.idMap folder.id fid,
          cache := cache',
          ctr := ctr' }
    | (none, cache') =>
      let rec' := processPass env rest { st with cache := cache' }
      (folder :: rec'.1, rec'.2)

/-- `getInternalParentRecursive`: walk the remote ancestor chain with a
per-walk visited set; a revisit is a cycle (warning, `null`); an ancestor
the provider cannot return is `null`.  The walk reads `remote_folders`
(resolved batch folders keyed by remote id) before calling the provider.
Fuel exhaustion (unreachable at the fuel chosen by the caller) clears
`completed`. -/
def getInternalParentRecursive (env : Env) (remoteFolders : List (String × GFolder)) :
    Nat → GFolder → List String → ResolveState → Option Ident × ResolveState
  | 0, _, _, st => (none, { st with completed := false })
  | fuel + 1, folder, visitedIds, st =>
    let rpid := remoteParentKey folder
    if visitedIds.contains rpid then
      (none, { st with warnings :=
        st.warnings ++ ["Circular reference detected for folder " ++ folder.id] })
    else
      let visited' := visitedIds ++ [rpid]
      let rc :=
        resolveParentId env.db env.connectionId rpid st.idMap env.driveIds st.cache
      let st' := { st with cache := rc.2 }
      match rc.1 with
      | some v => (some v, st')
      | none =>
        match jsMapGet remoteFolders rpid with
        | some pf => getInternalParentRecursive env remoteFolders fuel pf visited' st'
        | none =>
          match jsMapGet env.provider rpid with
          | some pf => getInternalParentRecursive env remoteFolders fuel pf visited' st'
          | none => (none, st')

/-- One pending folder of `handleUnresolvedFolders`: run the ancestor walk,
mint a fresh uuid (never the stored id), record it in the id map, and push
the folder to the output. -/
def fallbackStep (env : Env) (remoteFolders : List (String × GFolder))
    (walkFuel : Nat) (acc : ResolveState) (folder : GFolder) : ResolveState :=
  let p := getInternalParentRecursive env remoteFolders walkFuel folder [] acc
  let fid := Ident.minted p.2.ctr
  { p.2 with
    ctr := p.2.ctr + 1,
    idMap := jsMapSet p.2.idMap folder.id fid,
    output := p.2.output ++
      [{ folder with internal_parent_folder_id := p.1, internal_id := some fid }] }

/-- `handleUnresolvedFolders`: warn, build the resolved-folder map, then
resolve each pending folder through `fallbackStep`.  `Promise.all` is
sequentialised in list order. -/
def handleUnresolvedFolders (env : Env) (pending : List GFolder)
    (st : ResolveState) : ResolveState :=
  let st0 := { st with
    usedFallback := true,
    warnings := st.warnings ++
      ["Found " ++ toString pending.length ++ " unresolved folders. Resolving them..."] }
  let remoteFolders := st.output.foldl (fun m f => jsMapSet m f.id f) []
  let walkFuel := env.provider.length + remoteFolders.length + 2
  pending.foldl (fallbackStep env remoteFolders walkFuel) st0

/-- The `while (remainingFolders.length > 0)` loop of
`processFoldersWithParents`: run a pass; if it resolved nothing, run the
fallback and break; otherwise continue with the pending folders.  The fuel
`folders.length + 1` supplied by the wrapper is enough because every
non-stuck pass strictly shrinks the remaining list. -/
def processLoop (env : Env) : Nat → List GFolder → ResolveState → ResolveState
  | 0, _, st => { st with completed := false }
  | fuel + 1, remaining, st =>
    if remaining.isEmpty then st
    else
      let (pending, st') := processPass env remaining st
      if isStuckInLoop pending remaining then
        handleUnresolvedFolders env pending st'
      else
        processLoop env fuel pending st'

/-- `processFoldersWithParents`. -/
def processFoldersWithParents (env : Env) (folders : List GFolder) : ResolveState :=
  processLoop env (folders.length + 1) folders initResolveState

/-- One `drive.files.list` response: the provider's listing split into
pages; the page token is the index of the next page, absent on the last
page (and on a response past the end of the listing). -/
def listPage (pages : List (List GFolder)) (i : Nat) : List GFolder × Option Nat :=
  ((pages.drop i).head?.getD [],
   if i + 1 < pages.length then some (i + 1) else none)

/-- The `do { ... } while (pageToken)` accumulation loop shared by
`getModifiedFolders` and `fetchFoldersForParent`: issue the listing call,
push the files when the page is non-empty, and continue while a
continuation token is returned.  The gas `pages.length + 1` supplied by the
wrappers is enough because the token strictly increases. -/
def drainGo (pages : List (List GFolder)) : Nat → Nat → List GFolder
  | _, 0 => []
  | i, gas + 1 =>
    let (files, tok) := listPage pages i
    let acc := if files.length != 0 then files else []
    match tok with
    | none => acc
    | some j => acc ++ drainGo pages j gas

/-- `getModifiedFolders`: drain the modified-since listing completely. -/
def getModifiedFolders (pages : List (List GFolder)) : List GFolder :=
  drainGo pages 0 (pages.length + 1)

/-- `fetchFoldersForParent`: drain the per-parent listing, then default the
`driveId` of folders that lack one (`folder.driveId || rootDriveId`, with
the empty string standing for a missing value). -/
def fetchFoldersForParent (pages : List (List GFolder)) (rootDriveId : String) :
    List GFolder :=
  (drainGo pages 0 (pages.length + 1)).map
    (fun f => if f.driveId == "" then { f with driveId := rootDriveId } else f)

/-- `populateFolders`: full-scan traversal, level by level.  Every folder
gets a freshly minted uuid (`folder.internal_id = uuidv4()`) and the
internal id of its already-resolved parent; the recursive parallel descent
is sequentialised, and the unbounded recursion depth is fuelled. -/
def populateFolders (childrenPages : Option String → String → List (List GFolder))
    (rootDriveId : String) :
    Nat → Option String → Option Ident → String → Nat → List GFolder × Nat
  | 0, _, _, _, ctr => ([], ctr)
  | fuel + 1, parentId, internalParentId, driveId, ctr =>
    let fetched := fetchFoldersForParent (childrenPages parentId driveId) rootDriveId
    let (current, ctr') := fetched.foldl
      (fun acc f =>
        let f' := { f with internal_id := some (Ident.minted acc.2),
                           internal_parent_folder_id := internalParentId }
        (acc.1 ++ [f'], acc.2 + 1))
      ([], ctr)
    current.foldl
      (fun acc f =>
        let (sub, c') :=
          populateFolders childrenPages rootDriveId fuel (some f.id) f.internal_id driveId acc.2
        (acc.1 ++ sub, c'))
      (current, ctr')

/-- A row of the `connections` table (the fields `sync` reads). -/
structure Connection where
  id_linked_user : String
  provider_slug : String
  vertical : String
  id_connection : String
  deriving DecidableEq, Repr

/-- `prisma.connections.findFirst({where: {id_linked_user, provider_slug:
'googledrive', vertical: 'filestorage'}})`. -/
def findConnection (conns : List Connection) (linkedUserId : String) :
    Option Connection :=
  conns.find? (fun c =>
    c.id_linked_user == linkedUserId && c.provider_slug == "googledrive" &&
      c.vertical == "filestorage")

/-- `getLastSyncTime`: the most recent `remote_modified_at` among the
connection's persisted folders, `null` when there are none. -/
def getLastSyncTime (db : List FsFolderRow) (connectionId : String) : Option Nat :=
  let rows := db.filter (fun r => r.id_connection == connectionId)
  match rows with
  | [] => none
  | r :: rs => some (rs.foldl (fun m x => max m x.remote_modified_at) r.remote_modified_at)

/-- The `folders.reduce(...)` accumulation of every embedded permission. -/
def allPermissionsOf (folders : List GFolder) : List GPermission :=
  folders.foldl
    (fun acc f => if f.permissions.length != 0 then acc ++ f.permissions else acc) []

/-- `new Map(allPermissions.map(p => [p.id, p])).values()`: deduplicate by
remote permission id, last write winning, keeping first-insertion order. -/
def uniquePermsOf (l : List GPermission) : List GPermission :=
  (l.foldl (fun m p => jsMapSet m p.id p) []).map (fun kv => kv.2)

/-- `new Map(syncedPermissions.map(p => [p.remote_id, p.id_fs_permission]))`. -/
def permissionIdMapOf (synced : List (String × String)) : List (String × String) :=
  synced.foldl (fun m pr => jsMapSet m pr.1 pr.2) []

/-- The per-folder rewrite
`folder.permissions = folder.permissions.map(p => map.get(p.id)).filter(defined)`:
replace each reference by the synced internal id, dropping unresolved ones. -/
def rewriteFolder (synced : List (String × String)) (f : GFolder) : GFolder :=
  if f.permissions.length != 0 then
    { f with permission_ids :=
        f.permissions.filterMap (fun p => jsMapGet (permissionIdMapOf synced) p.id) }
  else f

/-- `ingestPermissionsForFolders`: result is the rewritten folders plus the
unique permission batch handed to `ingestService.ingestData` (the model's
record of store writes); `synced` is the ingest service's answer, keyed by
remote id. -/
def ingestPermissionsForFolders (folders : List GFolder)
    (synced : List (String × String)) : List GFolder × List GPermission :=
  if folders.length == 0 then (folders, [])
  else
    let allPermissions := allPermissionsOf folders
    if allPermissions.length == 0 then (folders, [])
    else
      let uniquePermissions := uniquePermsOf allPermissions
      let rewritten := folders.map (rewriteFolder synced)
      (rewritten, uniquePermissions)

/-- Everything `sync` touches: the `connections` and `fs_folders` tables and
the remote-provider oracles (drive ids, the modified-since listing pages,
the per-parent listing pages for the full scan, the `files.get` oracle, and
the ingest service's answer for permission ingestion). -/
structure World where
  connections : List Connection
  db : List FsFolderRow
  driveIds : List String
  rootDriveId : String
  listPages : List (List GFolder)
  childrenPages : Option String → String → List (List GFolder)
  scanDepth : Nat
  provider : List (String × GFolder)
  syncedPerms : List (String × String)

/-- `getFoldersIncremental`: fetch the modified folders and resolve their
parents against the batch and the store. -/
def getFoldersIncremental (w : World) (connectionId : String) : List GFolder :=
  (processFoldersWithParents
    { db := w.db, connectionId := connectionId, driveIds := w.driveIds,
      provider := w.provider }
    (getModifiedFolders w.listPages)).output

/-- `recursiveGetGoogleDriveFolders`: full scan over every drive. -/
def recursiveGetGoogleDriveFolders (w : World) : List GFolder :=
  (w.driveIds.foldl
    (fun acc d =>
      let (fs, c') :=
        populateFolders w.childrenPages w.rootDriveId w.scanDepth none none d acc.2
      (acc.1 ++ fs, c'))
    ([], 0)).1

/-- The `ApiResponse` returned by `sync`, extended with the list of
permission records the run handed to the ingest service (empty = the store
was not written). -/
structure SyncOutcome where
  data : List GFolder
  message : String
  statusCode : Nat
  ingestedPerms : List GPermission
  deriving DecidableEq, Repr

/-- `sync`: look up the connection; absent ⇒ 404 with an empty list and no
further work; otherwise full or incremental fetch followed by permission
ingestion. -/
def sync (w : World) (linkedUserId : String) : SyncOutcome :=
  match findConnection w.connections linkedUserId with
  | none =>
    { data := [], message := "Connection not found", statusCode := 404,
      ingestedPerms := [] }
  | some conn =>
    let folders :=
      match getLastSyncTime w.db conn.id_connection with
      | some _ => getFoldersIncremental w conn.id_connection
      | none => recursiveGetGoogleDriveFolders w
    let (folders', written) := ingestPermissionsForFolders folders w.syncedPerms
    { data := folders', message := "Google Drive folders retrieved",
      statusCode := 200, ingestedPerms := written }

/-- `RATE_LIMIT_DELAY`. -/
def RATE_LIMIT_DELAY : Nat := 100
/-- `MAX_API_RETRIES`. -/
def MAX_API_RETRIES : Nat := 3
/-- `BASE_BACKOFF_MS`. -/
def BASE_BACKOFF_MS : Nat := 1000

/-- A thrown JavaScript error as `isRateLimitError` inspects it: either an
object with `code` and `message` fields, or anything else. -/
inductive JsError where
  | obj (code : Int) (message : String)
  | other
  deriving DecidableEq, Repr

/-- `error.message` (`undefined` for a non-object error). -/
def JsError.messageOf : JsError → String
  | .obj _ m => m
  | .other => "undefined"

/-- `pat` is a prefix of `l` (character lists). -/
def charsHavePre : List Char → List Char → Bool
  | [], _ => true
  | _ :: _, [] => false
  | c :: p, d :: l => c == d && charsHavePre p l

/-- `pat` occurs somewhere in `l` (character lists). -/
def charsContain (p : List Char) : List Char → Bool
  | [] => charsHavePre p []
  | d :: l => charsHavePre p (d :: l) || charsContain p l

/-- `String.prototype.includes`. -/
def stringIncludes (s pat : String) : Bool :=
  charsContain pat.toList s.toList

/-- `isRateLimitError`: an object error with `code === 429` or a message
containing `'quota'`. -/
def isRateLimitError : JsError → Bool
  | .obj c m => c == 429 || stringIncludes m "quota"
  | .other => false

/-- The observable outcome of `executeWithRetry`: the value or error, the
number of attempts made, and the total backoff delay enforced between
attempts (excluding the fixed `RATE_LIMIT_DELAY` spacing before each
attempt). -/
inductive RetryOutcome (α : Type) where
  | ok (v : α) (attempts : Nat) (backoff : Nat)
  | thrown (e : JsError) (attempts : Nat) (backoff : Nat)
  | exhausted (msg : String) (last : JsError) (attempts : Nat) (backoff : Nat)
  deriving DecidableEq, Repr

/-- The body of `executeWithRetry`.  The operation is attempt-indexed
(`op k` is the outcome of the `k`-th call, 0-based).  `remaining` counts
down from `MAX_API_RETRIES`, so `remaining = 0` is exactly the source's
`retryCount >= MAX_API_RETRIES` check, and `attempt = MAX_API_RETRIES -
remaining` is the source's `retryCount`. -/
def retryGo {α : Type} (op : Nat → Except JsError α) : Nat → Nat → RetryOutcome α
  | attempt, 0 =>
    match op attempt with
    | .ok v => .ok v (attempt + 1) 0
    | .error e =>
      if !isRateLimitError e then .thrown e (attempt + 1) 0
      else
        .exhausted
          ("Failed after " ++ toString MAX_API_RETRIES ++ " retries. Last error: "
            ++ e.messageOf)
          e (attempt + 1) 0
  | attempt, remaining + 1 =>
    match op attempt with
    | .ok v => .ok v (attempt + 1) 0
    | .error e =>
      if !isRateLimitError e then .thrown e (attempt + 1) 0
      else
        let backoffTime := BASE_BACKOFF_MS * 2 ^ attempt
        match retryGo op (attempt + 1) remaining with
        | .ok v a b => .ok v a (b + backoffTime)
        | .thrown e' a b => .thrown e' a (b + backoffTime)
        | .exhausted m e' a b => .exhausted m e' a (b + backoffTime)

/-- `executeWithRetry` (first call has `retryCount = 0`). -/
def executeWithRetry {α : Type} (op : Nat → Except JsError α) : RetryOutcome α :=
  retryGo op 0 MAX_API_RETRIES

/-- A Zendesk stage record: `id`, `name`, and the remaining remote
attributes as a keyed collection accessed dynamically
(`stage[mapping.remote_id]`). -/
structure ZendeskStage where
  id : Int
  name : String
  attrs : List (String × String)
  deriving DecidableEq, Repr

/-- One custom field mapping `{slug, remote_id}` (the spec calls the second
component `remote_attribute`). -/
structure FieldMapping where
  slug : String
  remote_id : String
  deriving DecidableEq, Repr

/-- The `UnifiedStageOutput` fields the mapper fills (`remote_data` is the
untouched source record). -/
structure UnifiedStage where
  remote_id : String
  stage_name : String
  field_mappings : List (String × Option String)
  deriving DecidableEq, Repr

/-- `mapSingleStageToUnified`: build `field_mappings` by copying
`stage[mapping.remote_id]` into `field_mappings[mapping.slug]` for each
supplied mapping (an absent remote attribute copies `undefined`). -/
def mapSingleStageToUnified (stage : ZendeskStage)
    (customFieldMappings : Option (List FieldMapping)) : UnifiedStage :=
  let fm :=
    match customFieldMappings with
    | none => []
    | some ms =>
      ms.foldl (fun acc m => jsMapSet acc m.slug (jsMapGet stage.attrs m.remote_id)) []
  { remote_id := toString stage.id, stage_name := stage.name, field_mappings := fm }

/-- `a` directly references `b` as its parent inside the output batch. -/
def parentOf (out : List GFolder) (a b : GFolder) : Prop :=
  a ∈ out ∧ b ∈ out ∧ ∃ i : Ident,
    a.internal_parent_folder_id = some i ∧ b.internal_id = some i

/-- `a` is its own ancestor inside the output batch. -/
def ownAncestor (out : List GFolder) (a : GFolder) : Prop :=
  Relation.TransGen (parentOf out) a a

/-! ### Association-list (JavaScript `Map`) lemmas -/

theorem jsMapGet_jsMapSet_self {α : Type} (m : List (String × α)) (k : String) (v : α) :
    jsMapGet (jsMapSet m k v) k = some v := by
  induction m with
  | nil => simp [jsMapGet, jsMapSet, List.find?]
  | cons x xs ih =>
    by_cases hx : x.1 = k
    · simp [jsMapGet, jsMapSet, hx, List.find?]
    · simp only [jsMapSet, show (x.1 == k) = false by simpa using hx, if_false]
      simpa [jsMapGet, List.find?, show (x.1 == k) = false by simpa using hx] using ih

theorem jsMapGet_jsMapSet_ne {α : Type} (m : List (String × α)) (k k' : String) (v : α)
    (h : k' ≠ k) : jsMapGet (jsMapSet m k v) k' = jsMapGet m k' := by
  induction m with
  | nil =>
    simp [jsMapGet, jsMapSet, List.find?, show (k == k') = false by
      simpa using fun e => h e.symm]
  | cons x xs ih =>
    by_cases hx : x.1 = k
    · simp [jsMapGet, jsMapSet, hx, List.find?,
        show (k == k') = false by simpa using fun e => h e.symm]
    · simp only [jsMapSet, show (x.1 == k) = false by simpa using hx, if_false]
      by_cases hxx : x.1 = k'
      · simp [jsMapGet, List.find?, hxx]
      · simpa [jsMapGet, List.find?, show (x.1 == k') = false by simpa using hxx]
          using ih

/-- Entries of `jsMapSet m k v` are `(k, v)` or come from `m`. -/
theorem mem_jsMapSet {α : Type} {m : List (String × α)} {k : String} {v : α}
    {kv : String × α} : kv ∈ jsMapSet m k v → kv = (k, v) ∨ kv ∈ m := by
  induction m with
  | nil =>
    intro h
    simp only [jsMapSet, List.mem_singleton] at h
    exact Or.inl h
  | cons x xs ih =>
    intro h
    simp only [jsMapSet] at h
    by_cases hx : x.1 = k
    · rw [if_pos (by simpa using hx : (x.1 == k) = true)] at h
      rcases List.mem_cons.mp h with h1 | h1
      · exact Or.inl h1
      · exact Or.inr (List.mem_cons_of_mem _ h1)
    · rw [if_neg (by simpa using hx : ¬ (x.1 == k) = true)] at h
      rcases List.mem_cons.mp h with h1 | h1
      · exact Or.inr (by rw [h1]; exact List.mem_cons_self x xs)
      · rcases ih h1 with h2 | h2
        · exact Or.inl h2
        · exact Or.inr (List.mem_cons_of_mem _ h2)

/-- `jsMapGet m k = some v` exhibits an entry of `m`. -/
theorem jsMapGet_mem {α : Type} {m : List (String × α)} {k : String} {v : α}
    (h : jsMapGet m k = some v) : (k, v) ∈ m := by
  unfold jsMapGet at h
  obtain ⟨kv, hfind, hv⟩ := Option.map_eq_some'.mp h
  have hmem := List.mem_of_find?_eq_some hfind
  have hkey : kv.1 = k := by simpa using List.find?_some hfind
  have : kv = (k, v) := by
    cases kv
    simp only at hkey hv
    simp [hkey, hv]
  exact this ▸ hmem

/-- A map none of whose keys is `k` answers `none` at `k`. -/
theorem jsMapGet_eq_none {α : Type} {m : List (String × α)} {k : String}
    (h : ∀ kv ∈ m, kv.1 ≠ k) : jsMapGet m k = none := by
  unfold jsMapGet
  have : m.find? (fun kv => kv.1 == k) = none := by
    apply List.find?_eq_none.mpr
    intro kv hkv
    simpa using h kv hkv
  simp [this]

/-! ### C5 — pagination completeness -/

theorem drainGo_eq_join (pages : List (List GFolder)) :
    ∀ gas i, pages.length - i < gas → drainGo pages i gas = (pages.drop i).flatten := by
  intro gas
  induction gas with
  | zero => intro i h; omega
  | succ g ih =>
    intro i h
    by_cases hi : i < pages.length
    · have hdrop : pages.drop i = pages[i] :: pages.drop (i + 1) :=
        List.drop_eq_getElem_cons hi
      have hhead : (pages.drop i).head?.getD [] = pages[i] := by
        rw [hdrop]; rfl
      have hacc : (if (pages[i] : List GFolder).length != 0 then pages[i] else []) =
          pages[i] := by
        by_cases hlen : (pages[i] : List GFolder).length = 0
        · have : (pages[i] : List GFolder) = [] := List.length_eq_zero.mp hlen
          simp [this]
        · simp [hlen]
      by_cases hlast : i + 1 < pages.length
      · have hrec := ih (i + 1) (by omega)
        simp only [drainGo, listPage, hlast, if_true, hrec, hdrop,
          List.head?_cons, Option.getD_some, hacc, List.flatten_cons]
      · have hdropnil : pages.drop (i + 1) = [] := by
          apply List.drop_eq_nil_of_le; omega
        simp only [drainGo, listPage, hlast, if_false, hdrop, hdropnil,
          List.head?_cons, Option.getD_some, hacc, List.flatten_cons,
          List.flatten_nil, List.append_nil]
    · have hdropnil : pages.drop i = [] := by
        apply List.drop_eq_nil_of_le; omega
      have hlast : ¬ i + 1 < pages.length := by omega
      simp [drainGo, listPage, hlast, hdropnil]

/-- C5: given a remote listing split across `K` pages of arbitrary sizes
summing to `N` entities (each page returning a next-page token except the
last), `getModifiedFolders` drains the listing completely and returns
exactly the `N` entities in page order (the concatenation of the pages),
for every `K`. -/
theorem getModifiedFolders_pagination_complete (pages : List (List GFolder)) :
    getModifiedFolders pages = pages.flatten ∧
      (getModifiedFolders pages).length = (pages.map List.length).sum := by
  have h := drainGo_eq_join pages (pages.length + 1) 0 (by omega)
  constructor
  · simpa [getModifiedFolders] using h
  · simp [getModifiedFolders, h, List.length_flatten]

/-! ### C6 / C7 — retry semantics of `executeWithRetry` -/

theorem retryGo_propagates {α : Type} (op : Nat → Except JsError α) :
    ∀ (k attempt remaining : Nat) (e : JsError), k ≤ remaining →
      (∀ j, j < k → ∃ ej, op (attempt + j) = .error ej ∧ isRateLimitError ej = true) →
      op (attempt + k) = .error e → isRateLimitError e = false →
      ∃ b, retryGo op attempt remaining = .thrown e (attempt + k + 1) b := by
  intro k
  induction k with
  | zero =>
    intro attempt remaining e _ _ hop hrl
    cases remaining with
    | zero =>
      refine ⟨0, ?_⟩
      simp only [retryGo, Nat.add_zero] at hop ⊢
      simp [hop, hrl]
    | succ r =>
      refine ⟨0, ?_⟩
      simp only [retryGo, Nat.add_zero] at hop ⊢
      simp [hop, hrl]
  | succ k ih =>
    intro attempt remaining e hk hprev hop hrl
    cases remaining with
    | zero => omega
    | succ r =>
      obtain ⟨e0, he0, hrl0⟩ := hprev 0 (by omega)
      simp only [Nat.add_zero] at he0
      have hshift : ∀ j, j < k →
          ∃ ej, op (attempt + 1 + j) = .error ej ∧ isRateLimitError ej = true := by
        intro j hj
        have := hprev (j + 1) (by omega)
        simpa [Nat.add_assoc, Nat.add_comm 1 j] using this
      have hop' : op (attempt + 1 + k) = .error e := by
        have : attempt + 1 + k = attempt + (k + 1) := by omega
        rw [this]; exact hop
      obtain ⟨b, hb⟩ := ih (attempt + 1) r e (by omega) hshift hop' hrl
      refine ⟨b + BASE_BACKOFF_MS * 2 ^ attempt, ?_⟩
      have harr : attempt + 1 + k + 1 = attempt + (k + 1) + 1 := by omega
      simp only [retryGo, he0, hrl0, Bool.not_true, Bool.false_eq_true, if_false, hb,
        harr]

theorem retryGo_exhausts {α : Type} (op : Nat → Except JsError α)
    (e : Nat → JsError)
    (herr : ∀ k, op k = .error (e k)) (hrl : ∀ k, isRateLimitError (e k) = true) :
    ∀ remaining attempt, ∃ b,
      retryGo op attempt remaining =
        .exhausted
          ("Failed after " ++ toString MAX_API_RETRIES ++ " retries. Last error: "
            ++ (e (attempt + remaining)).messageOf)
          (e (attempt + remaining)) (attempt + remaining + 1) b := by
  intro remaining
  induction remaining with
  | zero =>
    intro attempt
    refine ⟨0, ?_⟩
    simp [retryGo, herr attempt, hrl attempt]
  | succ r ih =>
    intro attempt
    obtain ⟨b, hb⟩ := ih (attempt + 1)
    refine ⟨b + BASE_BACKOFF_MS * 2 ^ attempt, ?_⟩
    have harr : attempt + 1 + r = attempt + (r + 1) := by omega
    rw [harr] at hb
    simp only [retryGo, herr attempt, hrl attempt, Bool.not_true, Bool.false_eq_true,
      if_false, hb]

/-- C6: `executeWithRetry` retries exactly the failures classified by
`isRateLimitError` (HTTP code 429 or a message containing `'quota'`) with
exponential backoff `BASE_BACKOFF_MS * 2 ^ attempt`, and propagates every
other failure on the attempt where it occurs without further attempts; in
particular an operation failing with quota errors on attempts 1 and 2 and
succeeding on attempt 3 yields the success value in exactly 3 attempts with
a total enforced backoff of at least `base + base * 2`. -/
theorem executeWithRetry_retry_semantics {α : Type} (op : Nat → Except JsError α) :
    ((∀ (k : Nat) (e : JsError), k ≤ MAX_API_RETRIES →
      (∀ j, j < k → ∃ ej, op j = .error ej ∧ isRateLimitError ej = true) →
      op k = .error e → isRateLimitError e = false →
      ∃ b, executeWithRetry op = .thrown e (k + 1) b)
    ∧ (∀ (e0 e1 : JsError) (v : α), op 0 = .error e0 → isRateLimitError e0 = true →
        op 1 = .error e1 → isRateLimitError e1 = true → op 2 = .ok v →
        ∃ b, executeWithRetry op = .ok v 3 b ∧
          BASE_BACKOFF_MS + BASE_BACKOFF_MS * 2 ≤ b)) := by
  constructor
  · intro k e hk hprev hop hrl
    have := retryGo_propagates op k 0 MAX_API_RETRIES e hk
      (by intro j hj; simpa using hprev j hj) (by simpa using hop) hrl
    simpa [executeWithRetry] using this
  · intro e0 e1 v h0 hrl0 h1 hrl1 h2
    refine ⟨BASE_BACKOFF_MS * 2 ^ 0 + BASE_BACKOFF_MS * 2 ^ 1, ?_, ?_⟩
    · show retryGo op 0 MAX_API_RETRIES = _
      have hmax : MAX_API_RETRIES = 2 + 1 := by rfl
      rw [hmax]
      simp only [retryGo, h0, hrl0, Bool.not_true, Bool.false_eq_true, if_false,
        h1, hrl1, h2]
      congr 1
    · simp [BASE_BACKOFF_MS]

/-- Witness for C6 at a concrete operation: a 429 error, then a
quota-message error, then success. -/
def opC6 : Nat → Except JsError Nat := fun k =>
  if k = 0 then .error (.obj 429 "Too many requests")
  else if k = 1 then .error (.obj 403 "User rate limit quota exceeded")
  else .ok 7

theorem executeWithRetry_retry_semantics_witness :
    ∃ b, executeWithRetry opC6 = .ok 7 3 b ∧
      BASE_BACKOFF_MS + BASE_BACKOFF_MS * 2 ≤ b :=
  (executeWithRetry_retry_semantics opC6).2
    (.obj 429 "Too many requests") (.obj 403 "User rate limit quota exceeded") 7
    rfl (by decide) rfl (by decide) rfl

/-- C7: an operation failing with a rate-limit/quota error on every attempt
makes `executeWithRetry` raise the terminal error after exactly
`MAX_API_RETRIES + 1 = 4` attempts, and the terminal error embeds the last
underlying error (both the error value and its message). -/
theorem executeWithRetry_exhaustion {α : Type} (op : Nat → Except JsError α)
    (e : Nat → JsError)
    (herr : ∀ k, op k = .error (e k)) (hrl : ∀ k, isRateLimitError (e k) = true) :
    ∃ b, executeWithRetry op =
      .exhausted
        ("Failed after " ++ toString MAX_API_RETRIES ++ " retries. Last error: "
          ++ (e MAX_API_RETRIES).messageOf)
        (e MAX_API_RETRIES) (MAX_API_RETRIES + 1) b := by
  have := retryGo_exhausts op e herr hrl MAX_API_RETRIES 0
  simpa [executeWithRetry] using this

def opC7 : Nat → Except JsError Nat := fun _ => .error (.obj 429 "quota exceeded")

theorem executeWithRetry_exhaustion_witness :
    ∃ b, executeWithRetry opC7 =
      .exhausted ("Failed after " ++ toString MAX_API_RETRIES ++ " retries. Last error: "
          ++ "quota exceeded")
        (.obj 429 "quota exceeded") (MAX_API_RETRIES + 1) b :=
  executeWithRetry_exhaustion opC7 (fun _ => .obj 429 "quota exceeded")
    (fun _ => rfl)
    (fun _ => by
      show isRateLimitError (.obj 429 "quota exceeded") = true
      decide)

/-! ### Fold-into-map lemmas -/

theorem jsMapGet_foldl_set {α β : Type} (kf : β → String) (vf : β → α) :
    ∀ (l : List β) (acc : List (String × α)) (s : String),
      jsMapGet (l.foldl (fun m x => jsMapSet m (kf x) (vf x)) acc) s =
        match l.reverse.find? (fun x => kf x == s) with
        | some y => some (vf y)
        | none => jsMapGet acc s := by
  intro l
  induction l with
  | nil => intro acc s; simp
  | cons x rest ih =>
    intro acc s
    simp only [List.foldl_cons, List.reverse_cons]
    rw [ih]
    rw [List.find?_append]
    cases hfind : rest.reverse.find? (fun y => kf y == s) with
    | some y => simp [hfind]
    | none =>
      simp only [hfind, Option.none_orElse]
      by_cases hk : kf x = s
      · subst hk
        simp [List.find?, jsMapGet_jsMapSet_self]
      · simp [List.find?, show (kf x == s) = false by simpa using hk,
          jsMapGet_jsMapSet_ne _ _ _ _ (fun e => hk e.symm)]

theorem jsMapGet_foldl_set_of_no_key {α β : Type} (kf : β → String) (vf : β → α)
    (l : List β) (acc : List (String × α)) (s : String)
    (h : ∀ x ∈ l, kf x ≠ s) :
    jsMapGet (l.foldl (fun m x => jsMapSet m (kf x) (vf x)) acc) s = jsMapGet acc s := by
  rw [jsMapGet_foldl_set]
  have : l.reverse.find? (fun x => kf x == s) = none := by
    apply List.find?_eq_none.mpr
    intro y hy
    simpa using h y (List.mem_reverse.mp hy)
  simp [this]

/-! ### C9 — custom field projection -/

/-- C9: for every record and custom-field-mapping list (with the slugs
pairwise distinct, as duplicate slugs would overwrite each other), each
`{slug, remote_id}` pair copies the record's dynamically accessed
`remote_id` attribute into `field_mappings[slug]` of the unified output. -/
theorem mapSingleStageToUnified_custom_fields (stage : ZendeskStage)
    (ms : List FieldMapping) (m : FieldMapping) (hm : m ∈ ms)
    (hnd : (ms.map FieldMapping.slug).Nodup) :
    jsMapGet (mapSingleStageToUnified stage (some ms)).field_mappings m.slug =
      some (jsMapGet stage.attrs m.remote_id) := by
  unfold mapSingleStageToUnified
  simp only
  have hfold := jsMapGet_foldl_set (fun m' : FieldMapping => m'.slug)
    (fun m' => jsMapGet stage.attrs m'.remote_id) ms [] m.slug
  refine hfold.trans ?_
  have hmem : m ∈ ms.reverse := List.mem_reverse.mpr hm
  have hsat : (fun x => x.slug == m.slug) m = true := by simp
  cases hfind : ms.reverse.find? (fun x => x.slug == m.slug) with
  | none =>
    exact absurd (List.find?_eq_none.mp hfind m hmem) (by simp)
  | some y =>
    have hy : y ∈ ms := List.mem_reverse.mp (List.mem_of_find?_eq_some hfind)
    have hslug : y.slug = m.slug := by simpa using List.find?_some hfind
    have hinj := List.inj_on_of_nodup_map hnd
    have : y = m := hinj hy hm hslug
    simp [this]

def stageC9 : ZendeskStage := { id := 3, name := "New", attrs := [("p_level", "high")] }

theorem mapSingleStageToUnified_custom_fields_witness :
    jsMapGet (mapSingleStageToUnified stageC9
        (some [{ slug := "priority", remote_id := "p_level" }])).field_mappings
      "priority" = some (some "high") := by
  have h := mapSingleStageToUnified_custom_fields stageC9
    [{ slug := "priority", remote_id := "p_level" }]
    { slug := "priority", remote_id := "p_level" } (by decide) (by decide)
  rw [h]
  decide

/-! ### C10 — sync with no matching connection -/

/-- C10: when the linked user has no matching Google Drive connection,
`sync` returns status 404 with an empty entity list and performs no further
work: the outcome records no ingested permissions (the store is untouched)
and is the same for any two worlds that agree on the `connections` table —
in particular it is independent of every remote-provider oracle, so no
remote call is made. -/
theorem sync_no_connection (w : World) (uid : String)
    (h : findConnection w.connections uid = none) :
    sync w uid =
      { data := [], message := "Connection not found", statusCode := 404,
        ingestedPerms := [] } ∧
      ∀ w' : World, w'.connections = w.connections → sync w' uid = sync w uid := by
  constructor
  · unfold sync
    rw [h]
  · intro w' hw
    have h' : findConnection w'.connections uid = none := by rw [hw]; exact h
    unfold sync
    rw [h, h']

def connC10 : Connection :=
  { id_linked_user := "u2", provider_slug := "googledrive",
    vertical := "filestorage", id_connection := "c" }

def wC10 : World :=
  { connections := [connC10],
    db := [], driveIds := [], rootDriveId := "", listPages := [],
    childrenPages := fun _ _ => [], scanDepth := 0, provider := [],
    syncedPerms := [] }

theorem sync_no_connection_witness :
    sync wC10 "u1" =
      { data := [], message := "Connection not found", statusCode := 404,
        ingestedPerms := [] } :=
  (sync_no_connection wC10 "u1" (by decide)).1

/-! ### C8 — cross-entity deduplication of embedded permissions -/

theorem keys_nodup_jsMapSet {α : Type} {m : List (String × α)} (k : String) (v : α)
    (h : (m.map Prod.fst).Nodup) : ((jsMapSet m k v).map Prod.fst).Nodup := by
  induction m with
  | nil => simp [jsMapSet]
  | cons x xs ih =>
    simp only [List.map_cons, List.nodup_cons] at h
    by_cases hx : x.1 = k
    · rw [jsMapSet, if_pos (by simpa using hx : (x.1 == k) = true)]
      simp only [List.map_cons, List.nodup_cons]
      exact ⟨by rw [← hx]; exact h.1, h.2⟩
    · rw [jsMapSet, if_neg (by simpa using hx : ¬ (x.1 == k) = true)]
      simp only [List.map_cons, List.nodup_cons]
      refine ⟨?_, ih h.2⟩
      intro hmem
      obtain ⟨kv, hkv, hfst⟩ := List.mem_map.mp hmem
      rcases mem_jsMapSet hkv with h1 | h1
      · exact hx (by rw [← hfst, h1])
      · exact h.1 (hfst ▸ List.mem_map_of_mem Prod.fst h1)

theorem keys_nodup_foldl_set {α β : Type} (kf : β → String) (vf : β → α) :
    ∀ (l : List β) (acc : List (String × α)), (acc.map Prod.fst).Nodup →
      ((l.foldl (fun m x => jsMapSet m (kf x) (vf x)) acc).map Prod.fst).Nodup := by
  intro l
  induction l with
  | nil => intro acc h; simpa using h
  | cons x rest ih =>
    intro acc h
    simpa using ih (jsMapSet acc (kf x) (vf x)) (keys_nodup_jsMapSet (kf x) (vf x) h)

theorem jsMapGet_of_mem_nodup {α : Type} {m : List (String × α)} {k : String} {v : α}
    (hnd : (m.map Prod.fst).Nodup) (hmem : (k, v) ∈ m) : jsMapGet m k = some v := by
  induction m with
  | nil => cases hmem
  | cons x xs ih =>
    simp only [List.map_cons, List.nodup_cons] at hnd
    rcases List.mem_cons.mp hmem with h1 | h1
    · rw [← h1]
      simp [jsMapGet, List.find?]
    · have hne : x.1 ≠ k := by
        intro he
        exact hnd.1 (he ▸ List.mem_map_of_mem Prod.fst h1)
      have := ih hnd.2 h1
      simpa [jsMapGet, List.find?, show (x.1 == k) = false by simpa using hne]
        using this

theorem mem_foldl_set {α β : Type} (kf : β → String) (vf : β → α) :
    ∀ (l : List β) (acc : List (String × α)) (kv : String × α),
      kv ∈ l.foldl (fun m x => jsMapSet m (kf x) (vf x)) acc →
        (∃ x ∈ l, kv = (kf x, vf x)) ∨ kv ∈ acc := by
  intro l
  induction l with
  | nil => intro acc kv h; exact Or.inr (by simpa using h)
  | cons x rest ih =>
    intro acc kv h
    simp only [List.foldl_cons] at h
    rcases ih (jsMapSet acc (kf x) (vf x)) kv h with h1 | h1
    · obtain ⟨y, hy, hkv⟩ := h1
      exact Or.inl ⟨y, List.mem_cons_of_mem _ hy, hkv⟩
    · rcases mem_jsMapSet h1 with h2 | h2
      · exact Or.inl ⟨x, List.mem_cons_self x rest, h2⟩
      · exact Or.inr h2

/-- Elements of `uniquePermsOf l` with the same remote id coincide. -/
theorem uniquePermsOf_unique {l : List GPermission} {p q : GPermission}
    (hp : p ∈ uniquePermsOf l) (hq : q ∈ uniquePermsOf l) (hid : p.id = q.id) :
    p = q := by
  unfold uniquePermsOf at hp hq
  obtain ⟨kvp, hkvp, hkvp2⟩ := List.mem_map.mp hp
  obtain ⟨kvq, hkvq, hkvq2⟩ := List.mem_map.mp hq
  have hment : ∀ kv : String × GPermission,
      kv ∈ l.foldl (fun m p => jsMapSet m p.id p) [] → kv = (kv.2.id, kv.2) := by
    intro kv hkv
    rcases mem_foldl_set (fun p : GPermission => p.id) (fun p => p) l [] kv hkv
      with h1 | h1
    · obtain ⟨x, _, hx⟩ := h1
      rw [hx]
    · cases h1
  have hnd := keys_nodup_foldl_set (fun p : GPermission => p.id) (fun p => p) l []
    (by simp)
  have hpent : (p.id, p) ∈ l.foldl (fun m p => jsMapSet m p.id p) [] := by
    have h' := hkvp
    rw [hment kvp hkvp] at h'
    rw [hkvp2] at h'
    exact h'
  have hqent : (q.id, q) ∈ l.foldl (fun m p => jsMapSet m p.id p) [] := by
    have h' := hkvq
    rw [hment kvq hkvq] at h'
    rw [hkvq2] at h'
    exact h' 
  have h1 := jsMapGet_of_mem_nodup hnd hpent
  have h2 := jsMapGet_of_mem_nodup hnd hqent
  rw [hid] at h1
  rw [h1] at h2
  exact Option.some.inj h2

/-- Every permission of `l` is represented in `uniquePermsOf l` by the last
element of `l` carrying its id (last write wins). -/
theorem uniquePermsOf_represents {l : List GPermission} {p : GPermission}
    (hp : p ∈ l) :
    ∃ q, q ∈ uniquePermsOf l ∧ q.id = p.id ∧
      l.reverse.find? (fun x => x.id == p.id) = some q := by
  have hfold := jsMapGet_foldl_set (fun p : GPermission => p.id) (fun p => p) l [] p.id
  cases hfind : l.reverse.find? (fun x => x.id == p.id) with
  | none =>
    exact absurd (List.find?_eq_none.mp hfind p (List.mem_reverse.mpr hp)) (by simp)
  | some q =>
    have hget : jsMapGet (l.foldl (fun m p => jsMapSet m p.id p) []) p.id = some q := by
      rw [hfold, hfind]
    refine ⟨q, ?_, by simpa using List.find?_some hfind, rfl⟩
    unfold uniquePermsOf
    exact List.mem_map_of_mem (fun kv => kv.2) (jsMapGet_mem hget)

/-- `allPermissionsOf` is the concatenation of the folders' permission
lists. -/
theorem allPermissionsOf_eq_flatten (folders : List GFolder) :
    allPermissionsOf folders = (folders.map GFolder.permissions).flatten := by
  unfold allPermissionsOf
  suffices h : ∀ (fs : List GFolder) (acc : List GPermission),
      fs.foldl (fun acc f =>
        if f.permissions.length != 0 then acc ++ f.permissions else acc) acc =
        acc ++ (fs.map GFolder.permissions).flatten by
    simpa using h folders []
  intro fs
  induction fs with
  | nil => intro acc; simp
  | cons f rest ih =>
    intro acc
    have hstep : (if f.permissions.length != 0 then acc ++ f.permissions else acc) =
        acc ++ f.permissions := by
      by_cases hl : f.permissions.length = 0
      · have : f.permissions = [] := List.length_eq_zero.mp hl
        simp [this]
      · simp [hl]
    simp only [List.foldl_cons, hstep, ih, List.map_cons, List.flatten_cons,
      List.append_assoc]

/-- The last permission in the batch embedding a given remote id. -/
def lastPermWith (folders : List GFolder) (r : String) : Option GPermission :=
  (folders.map GFolder.permissions).flatten.reverse.find? (fun p => p.id == r)

/-- C8: when several entities of a batch embed sub-entities with the same
remote id, exactly one permission per remote id — the last one in batch
order — is passed to ingestion; each folder's reference list is rewritten
to the synced internal ids of its embedded permissions, and a reference
whose permission is absent from the ingestion result is dropped rather than
raising an error. -/
theorem ingestPermissions_dedup_and_relink (folders : List GFolder)
    (synced : List (String × String))
    (hclean : ∀ f ∈ folders, f.permission_ids = []) :
    (∀ p ∈ (ingestPermissionsForFolders folders synced).2,
      ∀ q ∈ (ingestPermissionsForFolders folders synced).2, p.id = q.id → p = q)
    ∧ (∀ f ∈ folders, ∀ p ∈ f.permissions,
        ∃ q ∈ (ingestPermissionsForFolders folders synced).2,
          q.id = p.id ∧ lastPermWith folders p.id = some q)
    ∧ (∀ f ∈ folders, ∃ f' ∈ (ingestPermissionsForFolders folders synced).1,
        f'.id = f.id ∧ f'.permissions = f.permissions ∧
        ∀ pid, pid ∈ f'.permission_ids ↔
          ∃ p ∈ f.permissions, jsMapGet (permissionIdMapOf synced) p.id = some pid) := by
  by_cases h0 : folders.length == 0
  · have hnil : folders = [] := List.length_eq_zero.mp (by simpa using h0)
    subst hnil
    refine ⟨?_, ?_, ?_⟩ <;> simp [ingestPermissionsForFolders]
  · by_cases h1 : (allPermissionsOf folders).length == 0
    · have hempty : allPermissionsOf folders = [] :=
        List.length_eq_zero.mp (by simpa using h1)
      have hout : ingestPermissionsForFolders folders synced = (folders, []) := by
        unfold ingestPermissionsForFolders
        rw [if_neg (by simpa using h0)]
        simp only [h1, if_pos]
      have hperms : ∀ f ∈ folders, f.permissions = [] := by
        intro f hf
        have := allPermissionsOf_eq_flatten folders
        rw [hempty] at this
        have hmem : f.permissions ∈ folders.map GFolder.permissions :=
          List.mem_map_of_mem GFolder.permissions hf
        have := (List.flatten_eq_nil_iff.mp this.symm) f.permissions hmem
        exact this
      refine ⟨?_, ?_, ?_⟩
      · intro p hp
        rw [hout] at hp
        cases hp
      · intro f hf p hp
        rw [hperms f hf] at hp
        cases hp
      · intro f hf
        refine ⟨f, by rw [hout]; exact hf, rfl, rfl, ?_⟩
        intro pid
        rw [hclean f hf, hperms f hf]
        simp
    · have hout : ingestPermissionsForFolders folders synced =
          (folders.map (rewriteFolder synced),
           uniquePermsOf (allPermissionsOf folders)) := by
        unfold ingestPermissionsForFolders
        rw [if_neg (by simpa using h0)]
        simp only [h1, Bool.false_eq_true, if_false]
      refine ⟨?_, ?_, ?_⟩
      · intro p hp q hq hid
        rw [hout] at hp hq
        exact uniquePermsOf_unique hp hq hid
      · intro f hf p hp
        have hmem : p ∈ allPermissionsOf folders := by
          rw [allPermissionsOf_eq_flatten]
          exact List.mem_flatten.mpr
            ⟨f.permissions, List.mem_map_of_mem GFolder.permissions hf, hp⟩
        obtain ⟨q, hq, hqid, hfind⟩ := uniquePermsOf_represents hmem
        refine ⟨q, by rw [hout]; exact hq, hqid, ?_⟩
        unfold lastPermWith
        rw [← allPermissionsOf_eq_flatten]
        exact hfind
      · intro f hf
        rw [hout]
        refine ⟨rewriteFolder synced f, List.mem_map_of_mem _ hf, ?_⟩
        by_cases hl : f.permissions.length = 0
        · have hpnil : f.permissions = [] := List.length_eq_zero.mp hl
          rw [rewriteFolder, if_neg (by simp [hpnil])]
          refine ⟨rfl, rfl, ?_⟩
          intro pid
          rw [hclean f hf, hpnil]
          simp
        · rw [rewriteFolder, if_pos (by simpa using hl)]
          refine ⟨rfl, rfl, ?_⟩
          intro pid
          simp [List.mem_filterMap]

/-- Witness folders for C8: two parents embedding the same permission id. -/
def permW : GPermission := { id := "perm-1", payload := "writer" }
def permR : GPermission := { id := "perm-1", payload := "reader" }
def permX : GPermission := { id := "p2", payload := "x" }

def folderF1 : GFolder :=
  { id := "F1", name := "", parents := [], driveId := "", permissions := [permW],
    permission_ids := [], internal_id := none, internal_parent_folder_id := none }

def folderF2 : GFolder :=
  { id := "F2", name := "", parents := [], driveId := "", permissions := [permR, permX],
    permission_ids := [], internal_id := none, internal_parent_folder_id := none }

theorem ingestPermissions_dedup_and_relink_witness :
    lastPermWith [folderF1, folderF2] "perm-1" = some permR := by
  have hpair := ingestPermissions_dedup_and_relink [folderF1, folderF2]
    [("perm-1", "ip1"), ("p2", "ip2")] (by decide)
  obtain ⟨q, hq, hqid, hlast⟩ := hpair.2.1 folderF2 (by decide) permR (by decide)
  have hrmem : permR ∈ (ingestPermissionsForFolders [folderF1, folderF2]
      [("perm-1", "ip1"), ("p2", "ip2")]).2 := by decide
  have hqr : q = permR := hpair.1 q hq permR hrmem hqid
  rw [← hqr]
  rw [show ("perm-1" : String) = permR.id from rfl]
  exact hlast

/-! ### Concrete batches for the claims about the resolver -/

/-- A bare remote folder record as fetched from the provider. -/
def mkFolder (i : String) (ps : List String) : GFolder :=
  { id := i, name := "", parents := ps, driveId := "", permissions := [],
    permission_ids := [], internal_id := none, internal_parent_folder_id := none }

/-! ### C4 — cycle safety of the fallback resolution -/

def envC4 : Env :=
  { db := [], connectionId := "c", driveIds := ["d"],
    provider := [("A", mkFolder "A" ["B"]), ("B", mkFolder "B" ["A"])] }

def foldersC4 : List GFolder := [mkFolder "A" ["B"], mkFolder "B" ["A"]]

/-- C4: for the batch `A (parent B)`, `B (parent A)` with neither persisted,
resolution terminates (every fuelled loop completes, i.e. the pass loop and
each ancestor walk reach their fixed points), both entities are still in
the output (the batch is not aborted), at least one of them ends with a
`null` internal parent, and warnings are recorded. -/
theorem cycle_safety_resolution :
    (processFoldersWithParents envC4 foldersC4).completed = true ∧
    ((processFoldersWithParents envC4 foldersC4).output.map GFolder.id) = ["A", "B"] ∧
    ((processFoldersWithParents envC4 foldersC4).output.any
      (fun f => (f.id == "A" || f.id == "B") &&
        f.internal_parent_folder_id.isNone)) = true ∧
    (processFoldersWithParents envC4 foldersC4).warnings ≠ [] := by decide

/-! ### C2 — stability of internal ids on re-resolution -/

def rowA : FsFolderRow :=
  { remote_id := "A", id_connection := "c", id_fs_folder := "idA",
    remote_modified_at := 0 }

def envC2 : Env :=
  { db := [rowA], connectionId := "c", driveIds := ["d"], provider := [] }

def foldersC2 : List GFolder := [mkFolder "A" ["B"]]

/-- C2 counterexample: folder `A` is already persisted with internal id
`idA`, but its parent `B` is unresolvable, so `A` goes through
`handleUnresolvedFolders`, which mints a fresh uuid instead of reusing the
persisted id — the claim fails on the fallback resolution path. -/
theorem identity_preservation_counterexample :
    findFolder envC2.db "A" "c" = some "idA" ∧
    ((processFoldersWithParents envC2 foldersC2).output.map GFolder.internal_id)
      = [some (Ident.minted 0)] ∧
    some (Ident.minted 0) ≠ some (Ident.stored "idA") ∧
    (processFoldersWithParents envC2 foldersC2).completed = true := by decide

/-- The ancestor walk leaves the id map, the output, the uuid counter and
the fallback flag untouched (it only updates the parent-lookup cache, the
warnings and the completion flag). -/
theorem getInternalParentRecursive_fields (env : Env)
    (rf : List (String × GFolder)) :
    ∀ (fuel : Nat) (folder : GFolder) (visited : List String) (st : ResolveState),
      (getInternalParentRecursive env rf fuel folder visited st).2.idMap = st.idMap ∧
      (getInternalParentRecursive env rf fuel folder visited st).2.output = st.output ∧
      (getInternalParentRecursive env rf fuel folder visited st).2.ctr = st.ctr ∧
      (getInternalParentRecursive env rf fuel folder visited st).2.usedFallback =
        st.usedFallback := by
  intro fuel
  induction fuel with
  | zero => intro folder visited st; simp [getInternalParentRecursive]
  | succ n ih =>
    intro folder visited st
    simp only [getInternalParentRecursive]
    split
    · simp
    · split
      · simp
      · split
        · exact ih _ _ _
        · split
          · exact ih _ _ _
          · simp

/-- `handleUnresolvedFolders` always marks the run as having used the
fallback. -/
theorem fallbackStep_usedFallback (env : Env) (rf : List (String × GFolder))
    (wf : Nat) (acc : ResolveState) (folder : GFolder) :
    (fallbackStep env rf wf acc folder).usedFallback = acc.usedFallback := by
  unfold fallbackStep
  simp only
  exact (getInternalParentRecursive_fields env rf wf folder [] acc).2.2.2

theorem foldl_fallbackStep_usedFallback (env : Env) (rf : List (String × GFolder))
    (wf : Nat) :
    ∀ (l : List GFolder) (st : ResolveState),
      (l.foldl (fallbackStep env rf wf) st).usedFallback = st.usedFallback := by
  intro l
  induction l with
  | nil => intro st; rfl
  | cons x rest ih =>
    intro st
    simp only [List.foldl_cons]
    rw [ih, fallbackStep_usedFallback]

theorem handleUnresolvedFolders_usedFallback (env : Env) (pending : List GFolder)
    (st : ResolveState) : (handleUnresolvedFolders env pending st).usedFallback = true := by
  unfold handleUnresolvedFolders
  simp only
  rw [foldl_fallbackStep_usedFallback]

/-- `processPass` never touches the fallback flag. -/
theorem processPass_usedFallback (env : Env) :
    ∀ (l : List GFolder) (st : ResolveState),
      (processPass env l st).2.usedFallback = st.usedFallback := by
  intro l
  induction l with
  | nil => intro st; rfl
  | cons folder rest ih =>
    intro st
    simp only [processPass]
    split
    · exact ih _
    · simp only
      exact ih _

/-- Every output entity added by a pass whose remote id is persisted for
the connection carries the persisted internal id. -/
def StoredIdsOk (env : Env) (out : List GFolder) : Prop :=
  ∀ f ∈ out, ∀ i0, findFolder env.db f.id env.connectionId = some i0 →
    f.internal_id = some (Ident.stored i0)

theorem processPass_storedIds (env : Env) :
    ∀ (l : List GFolder) (st : ResolveState), StoredIdsOk env st.output →
      StoredIdsOk env (processPass env l st).2.output := by
  intro l
  induction l with
  | nil => intro st h; exact h
  | cons folder rest ih =>
    intro st h
    simp only [processPass]
    split
    · next ipid cache' heq =>
      apply ih
      intro f hf i0 hi0
      rcases List.mem_append.mp hf with hf1 | hf1
      · exact h f hf1 i0 hi0
      · have hfeq : f = createFolderWithInternalIds folder ipid
            (getIntenalIdForFolder env.db env.connectionId folder.id st.ctr).1 := by
          simpa using hf1
        subst hfeq
        have hid : (createFolderWithInternalIds folder ipid
            (getIntenalIdForFolder env.db env.connectionId folder.id st.ctr).1).id =
            folder.id := rfl
        rw [hid] at hi0
        have : (getIntenalIdForFolder env.db env.connectionId folder.id st.ctr).1 =
            Ident.stored i0 := by
          unfold getIntenalIdForFolder
          rw [hi0]
        simp [createFolderWithInternalIds, this]
    · simp only
      exact ih _ h

theorem processLoop_storedIds (env : Env) :
    ∀ (fuel : Nat) (remaining : List GFolder) (st : ResolveState),
      (st.usedFallback = false → StoredIdsOk env st.output) →
      ((processLoop env fuel remaining st).usedFallback = false →
        StoredIdsOk env (processLoop env fuel remaining st).output) := by
  intro fuel
  induction fuel with
  | zero => intro remaining st h; exact h
  | succ n ih =>
    intro remaining st h
    simp only [processLoop]
    split
    · exact h
    · split
      · intro hfb
        rw [handleUnresolvedFolders_usedFallback] at hfb
        cases hfb
      · apply ih
        intro hfb
        rw [processPass_usedFallback] at hfb
        exact processPass_storedIds env _ _ (h hfb)

/-- C2 (amended): on runs that never enter the fallback path (every entity's
parent resolves in the pass loop), re-resolving an entity that is already
persisted for the connection assigns it its persisted internal id — even if
its remote parent changed — rather than minting a fresh one.  (The fallback
path, and only it, mints fresh ids, as the counterexample shows; the
full-scan traversal is only taken when the store has no folder for the
connection, so no persisted entity can be re-resolved there.) -/
theorem identity_preserved_without_fallback (env : Env) (folders : List GFolder)
    (hnf : (processFoldersWithParents env folders).usedFallback = false) :
    ∀ f ∈ (processFoldersWithParents env folders).output,
      ∀ i0, findFolder env.db f.id env.connectionId = some i0 →
        f.internal_id = some (Ident.stored i0) := by
  have h := processLoop_storedIds env (folders.length + 1) folders initResolveState
    (by intro _ f hf; cases hf)
  exact h hnf

def foldersC2W : List GFolder := [mkFolder "A" ["root"]]

theorem identity_preserved_without_fallback_witness :
    (createFolderWithInternalIds (mkFolder "A" ["root"]) Ident.root
        (Ident.stored "idA")).internal_id = some (Ident.stored "idA") :=
  identity_preserved_without_fallback envC2 foldersC2W (by decide)
    (createFolderWithInternalIds (mkFolder "A" ["root"]) Ident.root
      (Ident.stored "idA"))
    (by decide) "idA" (by decide)

/-! ### C3 — root-equivalent parents -/

def envC3 : Env :=
  { db := [], connectionId := "c", driveIds := ["d"], provider := [] }

def foldersC3 : List GFolder := [mkFolder "d" [], mkFolder "A" ["d"]]

/-- C3 counterexample: `resolveParentId` consults the resolved-this-run map
before the drive/root identifiers, so when the batch itself contains an
entity whose remote id is the drive id `d`, the entity `A` with remote
parent `d` receives that entity's freshly minted internal id instead of
`null`. -/
theorem root_parent_null_counterexample :
    ("d" ∈ envC3.driveIds) ∧
    remoteParentKey (mkFolder "A" ["d"]) = "d" ∧
    ((processFoldersWithParents envC3 foldersC3).output.map GFolder.id)
      = ["d", "A"] ∧
    ((processFoldersWithParents envC3 foldersC3).output.map
      GFolder.internal_parent_folder_id) = [none, some (Ident.minted 0)] := by
  decide

theorem contains_of_mem {l : List String} {a : String} (h : a ∈ l) :
    l.contains a = true :=
  List.elem_eq_true_of_mem h

theorem processPass_output_mono (env : Env) :
    ∀ (l : List GFolder) (st : ResolveState),
      ∃ t, (processPass env l st).2.output = st.output ++ t := by
  intro l
  induction l with
  | nil => intro st; exact ⟨[], by simp [processPass]⟩
  | cons x rest ih =>
    intro st
    simp only [processPass]
    split
    · next ipid cache' heq =>
      obtain ⟨t, ht⟩ := ih
        { st with
          output := st.output ++
            [createFolderWithInternalIds x ipid
              (getIntenalIdForFolder env.db env.connectionId x.id st.ctr).1],
          idMap := jsMapSet st.idMap x.id
            (getIntenalIdForFolder env.db env.connectionId x.id st.ctr).1,
          cache := cache',
          ctr := (getIntenalIdForFolder env.db env.connectionId x.id st.ctr).2 }
      refine ⟨[createFolderWithInternalIds x ipid
        (getIntenalIdForFolder env.db env.connectionId x.id st.ctr).1] ++ t, ?_⟩
      rw [ht]
      simp [List.append_assoc]
    · next cache' heq =>
      exact ih { st with cache := cache' }

theorem fallbackStep_output_mono (env : Env) (rf : List (String × GFolder))
    (wf : Nat) (acc : ResolveState) (folder : GFolder) :
    ∃ t, (fallbackStep env rf wf acc folder).output = acc.output ++ t := by
  unfold fallbackStep
  simp only
  rw [(getInternalParentRecursive_fields env rf wf folder [] acc).2.1]
  exact ⟨_, rfl⟩

theorem foldl_fallbackStep_output_mono (env : Env) (rf : List (String × GFolder))
    (wf : Nat) :
    ∀ (l : List GFolder) (st : ResolveState),
      ∃ t, (l.foldl (fallbackStep env rf wf) st).output = st.output ++ t := by
  intro l
  induction l with
  | nil => intro st; exact ⟨[], by simp⟩
  | cons x rest ih =>
    intro st
    simp only [List.foldl_cons]
    obtain ⟨t1, ht1⟩ := fallbackStep_output_mono env rf wf st x
    obtain ⟨t2, ht2⟩ := ih (fallbackStep env rf wf st x)
    exact ⟨t1 ++ t2, by rw [ht2, ht1, List.append_assoc]⟩

theorem handleUnresolvedFolders_output_mono (env : Env) (pending : List GFolder)
    (st : ResolveState) :
    ∃ t, (handleUnresolvedFolders env pending st).output = st.output ++ t := by
  unfold handleUnresolvedFolders
  simp only
  exact foldl_fallbackStep_output_mono env _ _ pending _

theorem processLoop_output_mono (env : Env) :
    ∀ (fuel : Nat) (remaining : List GFolder) (st : ResolveState),
      ∃ t, (processLoop env fuel remaining st).output = st.output ++ t := by
  intro fuel
  induction fuel with
  | zero => intro remaining st; exact ⟨[], by simp [processLoop]⟩
  | succ n ih =>
    intro remaining st
    simp only [processLoop]
    split
    · exact ⟨[], by simp⟩
    · split
      · obtain ⟨t1, ht1⟩ := processPass_output_mono env remaining st
        obtain ⟨t2, ht2⟩ :=
          handleUnresolvedFolders_output_mono env (processPass env remaining st).1
            (processPass env remaining st).2
        exact ⟨t1 ++ t2, by rw [ht2, ht1, List.append_assoc]⟩
      · obtain ⟨t1, ht1⟩ := processPass_output_mono env remaining st
        obtain ⟨t2, ht2⟩ := ih (processPass env remaining st).1
          (processPass env remaining st).2
        exact ⟨t1 ++ t2, by rw [ht2, ht1, List.append_assoc]⟩

/-- A folder of the batch whose remote parent is a drive/root identifier
not shadowed by the id map or the batch resolves during the pass with a
`null` parent. -/
theorem processPass_resolves_root (env : Env) :
    ∀ (l : List GFolder) (st : ResolveState) (f : GFolder), f ∈ l →
      (remoteParentKey f ∈ env.driveIds ∨ remoteParentKey f = "root") →
      (∀ kv ∈ st.idMap, kv.1 ≠ remoteParentKey f) →
      (∀ g ∈ l, g.id ≠ remoteParentKey f) →
      ∃ fid, createFolderWithInternalIds f Ident.root fid ∈
        (processPass env l st).2.output := by
  intro l
  induction l with
  | nil => intro st f hf; cases hf
  | cons x rest ih =>
    intro st f hf hroot hmap hbatch
    rcases List.mem_cons.mp hf with hfx | hfr
    · subst hfx
      have hget : jsMapGet st.idMap (remoteParentKey f) = none :=
        jsMapGet_eq_none (fun kv hkv => hmap kv hkv)
      have hcond : (env.driveIds.contains (remoteParentKey f) ||
          (remoteParentKey f == "root")) = true := by
        rcases hroot with hmem | hr
        · rw [contains_of_mem hmem]; rfl
        · rw [hr]; simp
      have hrp : resolveParentId env.db env.connectionId (remoteParentKey f)
          st.idMap env.driveIds st.cache = (some Ident.root, st.cache) := by
        unfold resolveParentId
        simp only [hget]
        rw [if_pos hcond]
      simp only [processPass, hrp]
      refine ⟨(getIntenalIdForFolder env.db env.connectionId f.id st.ctr).1, ?_⟩
      obtain ⟨t, ht⟩ := processPass_output_mono env rest
        { st with
          output := st.output ++
            [createFolderWithInternalIds f Ident.root
              (getIntenalIdForFolder env.db env.connectionId f.id st.ctr).1],
          idMap := jsMapSet st.idMap f.id
            (getIntenalIdForFolder env.db env.connectionId f.id st.ctr).1,
          cache := st.cache,
          ctr := (getIntenalIdForFolder env.db env.connectionId f.id st.ctr).2 }
      rw [ht]
      refine List.mem_append_left _ (List.mem_append_right _ ?_)
      exact List.mem_singleton.mpr rfl
    · simp only [processPass]
      split
      · next ipid cache' heq =>
        apply ih _ f hfr hroot
        · intro kv hkv
          rcases mem_jsMapSet hkv with h1 | h1
          · rw [h1]
            exact hbatch x (List.mem_cons_self x rest)
          · exact hmap kv h1
        · intro g hg
          exact hbatch g (List.mem_cons_of_mem x hg)
      · next cache' heq =>
        apply ih _ f hfr hroot
        · intro kv hkv
          exact hmap kv hkv
        · intro g hg
          exact hbatch g (List.mem_cons_of_mem x hg)

/-- C3 (amended): an entity whose remote parent id matches a known
drive/root identifier is assigned `internal_parent_id = null`, provided no
batch entity's own remote id equals that identifier (the resolved-this-run
map is consulted before the drive-id check and shadows it, as the
counterexample shows); such an entity always resolves in the pass loop, so
the fallback path never touches it. -/
theorem root_parent_resolves_null (env : Env) (folders : List GFolder)
    (f : GFolder) (hf : f ∈ folders)
    (hroot : remoteParentKey f ∈ env.driveIds ∨ remoteParentKey f = "root")
    (hshadow : ∀ g ∈ folders, g.id ≠ remoteParentKey f) :
    ∃ f' ∈ (processFoldersWithParents env folders).output,
      f'.id = f.id ∧ f'.internal_parent_folder_id = none := by
  unfold processFoldersWithParents
  have hne : ¬ folders.isEmpty = true := by
    cases folders with
    | nil => cases hf
    | cons x xs => simp [List.isEmpty]
  obtain ⟨fid, hmem⟩ := processPass_resolves_root env folders initResolveState f hf
    hroot (by intro kv hkv; cases hkv) hshadow
  simp only [processLoop]
  rw [if_neg hne]
  have hdone : ∀ final : ResolveState,
      (∃ t, final.output = (processPass env folders initResolveState).2.output ++ t) →
      ∃ f' ∈ final.output, f'.id = f.id ∧ f'.internal_parent_folder_id = none := by
    intro final ⟨t, ht⟩
    refine ⟨createFolderWithInternalIds f Ident.root fid, ?_, rfl, rfl⟩
    rw [ht]
    exact List.mem_append_left _ hmem
  split
  · exact hdone _ (handleUnresolvedFolders_output_mono env _ _)
  · exact hdone _ (processLoop_output_mono env _ _ _)

def envC3W : Env :=
  { db := [], connectionId := "c", driveIds := ["d"], provider := [] }

theorem root_parent_resolves_null_witness :
    ∃ f' ∈ (processFoldersWithParents envC3W [mkFolder "A" ["d"]]).output,
      f'.id = (mkFolder "A" ["d"]).id ∧ f'.internal_parent_folder_id = none :=
  root_parent_resolves_null envC3W [mkFolder "A" ["d"]] (mkFolder "A" ["d"])
    (by decide) (Or.inl (by decide)) (by decide)

/-! ### C1 — parent links and the forest property -/

def rowP : FsFolderRow :=
  { remote_id := "P", id_connection := "c", id_fs_folder := "idP",
    remote_modified_at := 0 }

def envC1 : Env :=
  { db := [rowP], connectionId := "c", driveIds := ["d"], provider := [] }

def foldersC1 : List GFolder := [mkFolder "A" ["P"], mkFolder "P" ["A"]]

def outC1 : List GFolder := (processFoldersWithParents envC1 foldersC1).output

def aC1 : GFolder :=
  { mkFolder "A" ["P"] with
    internal_id := some (Ident.minted 0),
    internal_parent_folder_id := some (Ident.stored "idP") }

def pC1 : GFolder :=
  { mkFolder "P" ["A"] with
    internal_id := some (Ident.stored "idP"),
    internal_parent_folder_id := some (Ident.minted 0) }

def envC1b : Env :=
  { db := [], connectionId := "c", driveIds := ["d"],
    provider := [("B", mkFolder "B" [])] }

def foldersC1b : List GFolder := [mkFolder "A" ["B"]]

/-- C1 counterexample, refuting both halves of the claim on concrete
successful runs.  First, with folder `P` persisted and a batch `A (parent
P)`, `P (parent A)`, the store lookup resolves `A`'s parent to `P`'s stored
id while the id map resolves `P`'s parent to `A`'s fresh id: entity `A` is
its own ancestor in the output, so the parent graph is not a forest.
Second, with batch `A (parent B)` where `B`'s remote parent is the root,
the fallback walk returns the `'root'` marker unconverted: `A`'s
`internal_parent_folder_id` is the non-null marker value `'root'`, which is
the internal id of no entity (and the store is empty), a dangling non-null
reference. -/
theorem resolution_forest_counterexample :
    ownAncestor outC1 aC1 ∧
    envC1b.db = [] ∧
    ((processFoldersWithParents envC1b foldersC1b).output.map
      GFolder.internal_parent_folder_id) = [some Ident.root] ∧
    ((processFoldersWithParents envC1b foldersC1b).output.all
      (fun g => g.internal_id != some Ident.root)) = true := by
  refine ⟨?_, rfl, by decide, by decide⟩
  have h1 : parentOf outC1 aC1 pC1 :=
    ⟨by decide, by decide, Ident.stored "idP", by decide, by decide⟩
  have h2 : parentOf outC1 pC1 aC1 :=
    ⟨by decide, by decide, Ident.minted 0, by decide, by decide⟩
  exact Relation.TransGen.tail (Relation.TransGen.single h1) h2

/-- A non-null internal id that a parent link may legitimately carry: the
internal id of an entity already in the output, or of a row persisted for
the connection. -/
def IdOk (env : Env) (out : List GFolder) (i : Ident) : Prop :=
  (∃ g ∈ out, g.internal_id = some i) ∨
  (∃ r ∈ env.db, r.id_connection = env.connectionId ∧ i = Ident.stored r.id_fs_folder)

/-- The shapes an assigned parent link can take. -/
def POk (env : Env) (out : List GFolder) (p : Option Ident) : Prop :=
  p = none ∨ p = some Ident.root ∨ ∃ i, p = some i ∧ IdOk env out i

/-- Invariant of the resolution state: id-map values, cached non-null
lookups and assigned parent links all point at output entities or persisted
rows. -/
def LinksInv (env : Env) (st : ResolveState) : Prop :=
  (∀ kv ∈ st.idMap, IdOk env st.output kv.2) ∧
  (∀ kv ∈ st.cache, ∀ i, kv.2 = some i → IdOk env st.output i) ∧
  (∀ f ∈ st.output, POk env st.output f.internal_parent_folder_id)

theorem IdOk_mono {env : Env} {out t : List GFolder} {i : Ident}
    (h : IdOk env out i) : IdOk env (out ++ t) i := by
  rcases h with ⟨g, hg, hgi⟩ | h2
  · exact Or.inl ⟨g, List.mem_append_left t hg, hgi⟩
  · exact Or.inr h2

theorem POk_mono {env : Env} {out t : List GFolder} {p : Option Ident}
    (h : POk env out p) : POk env (out ++ t) p := by
  rcases h with h1 | h1 | ⟨i, hi, hok⟩
  · exact Or.inl h1
  · exact Or.inr (Or.inl h1)
  · exact Or.inr (Or.inr ⟨i, hi, IdOk_mono hok⟩)

theorem findFolder_spec {db : List FsFolderRow} {rid cid s : String}
    (h : findFolder db rid cid = some s) :
    ∃ r ∈ db, r.id_connection = cid ∧ s = r.id_fs_folder := by
  unfold findFolder at h
  obtain ⟨r, hfind, hs⟩ := Option.map_eq_some'.mp h
  have hmem := List.mem_of_find?_eq_some hfind
  have hpred := List.find?_some hfind
  simp only [Bool.and_eq_true, beq_iff_eq] at hpred
  exact ⟨r, hmem, hpred.2, hs.symm⟩

theorem resolveParentId_spec (env : Env) (pid : String)
    (idMap : List (String × Ident)) (cache : List (String × Option Ident))
    (out : List GFolder)
    (hmap : ∀ kv ∈ idMap, IdOk env out kv.2)
    (hcache : ∀ kv ∈ cache, ∀ i, kv.2 = some i → IdOk env out i) :
    (∀ i, (resolveParentId env.db env.connectionId pid idMap env.driveIds cache).1 =
        some i → i = Ident.root ∨ IdOk env out i) ∧
    (∀ kv ∈ (resolveParentId env.db env.connectionId pid idMap env.driveIds cache).2,
        ∀ i, kv.2 = some i → IdOk env out i) := by
  cases h1 : jsMapGet idMap pid with
  | some v =>
    simp only [resolveParentId, h1]
    refine ⟨?_, fun kv hkv i hi => hcache kv hkv i hi⟩
    intro i hi
    have hvi : v = i := by simpa using hi
    exact Or.inr (hvi ▸ hmap (pid, v) (jsMapGet_mem h1))
  | none =>
    by_cases h2 : (env.driveIds.contains pid || pid == "root") = true
    · simp only [resolveParentId, h1, if_pos h2]
      refine ⟨?_, fun kv hkv i hi => hcache kv hkv i hi⟩
      intro i hi
      exact Or.inl (by simpa using hi.symm)
    · cases h3 : jsMapGet cache pid with
      | some cached =>
        simp only [resolveParentId, h1, if_neg h2, h3]
        refine ⟨?_, fun kv hkv i hi => hcache kv hkv i hi⟩
        intro i hi
        exact Or.inr (hcache (pid, cached) (jsMapGet_mem h3) i hi)
      | none =>
        simp only [resolveParentId, h1, if_neg h2, h3]
        refine ⟨?_, ?_⟩
        · intro i hi
          obtain ⟨s, hs, hi2⟩ := Option.map_eq_some'.mp hi
          obtain ⟨r, hr, hrc, hrs⟩ := findFolder_spec hs
          refine Or.inr (Or.inr ⟨r, hr, hrc, ?_⟩)
          rw [← hi2, hrs]
        · intro kv hkv i hi
          rcases mem_jsMapSet hkv with hk | hk
          · rw [hk] at hi
            simp only at hi
            obtain ⟨s, hs, hi2⟩ := Option.map_eq_some'.mp hi
            obtain ⟨r, hr, hrc, hrs⟩ := findFolder_spec hs
            refine Or.inr ⟨r, hr, hrc, ?_⟩
            rw [← hi2, hrs]
          · exact hcache kv hk i hi

theorem getInternalParentRecursive_spec (env : Env) (rf : List (String × GFolder))
    (out : List GFolder) :
    ∀ (fuel : Nat) (folder : GFolder) (visited : List String) (st : ResolveState),
      (∀ kv ∈ st.idMap, IdOk env out kv.2) →
      (∀ kv ∈ st.cache, ∀ i, kv.2 = some i → IdOk env out i) →
      (∀ i, (getInternalParentRecursive env rf fuel folder visited st).1 = some i →
        i = Ident.root ∨ IdOk env out i) ∧
      (∀ kv ∈ (getInternalParentRecursive env rf fuel folder visited st).2.cache,
        ∀ i, kv.2 = some i → IdOk env out i) := by
  intro fuel
  induction fuel with
  | zero =>
    intro folder visited st _ hcache
    exact ⟨fun i hi => (by cases hi), fun kv hkv i hi => hcache kv hkv i hi⟩
  | succ n ih =>
    intro folder visited st hmap hcache
    have hspec := resolveParentId_spec env (remoteParentKey folder) st.idMap st.cache
      out hmap hcache
    simp only [getInternalParentRecursive]
    split
    · exact ⟨fun i hi => (by cases hi), fun kv hkv i hi => hcache kv hkv i hi⟩
    · split
      · next v heq =>
        refine ⟨?_, hspec.2⟩
        intro i hi
        have hvi : v = i := by simpa using hi
        exact hvi ▸ hspec.1 v heq
      · split
        · exact ih _ _ _ hmap hspec.2
        · split
          · exact ih _ _ _ hmap hspec.2
          · exact ⟨fun i hi => (by cases hi), hspec.2⟩

theorem processPass_links (env : Env) :
    ∀ (l : List GFolder) (st : ResolveState), LinksInv env st →
      LinksInv env (processPass env l st).2 := by
  intro l
  induction l with
  | nil => intro st h; exact h
  | cons x rest ih =>
    intro st inv
    obtain ⟨hmap, hcache, hout⟩ := inv
    simp only [processPass]
    split
    · next ipid cache' heq =>
      apply ih
      have hspec := resolveParentId_spec env (remoteParentKey x) st.idMap st.cache
        st.output hmap hcache
      rw [heq] at hspec
      have hipid : ipid = Ident.root ∨ IdOk env st.output ipid := hspec.1 ipid rfl
      set fid := (getIntenalIdForFolder env.db env.connectionId x.id st.ctr).1 with hfid
      set f' := createFolderWithInternalIds x ipid fid with hf'
      have hfmem : f' ∈ st.output ++ [f'] :=
        List.mem_append_right _ (List.mem_singleton.mpr rfl)
      have hfint : f'.internal_id = some fid := rfl
      refine ⟨?_, ?_, ?_⟩
      · intro kv hkv
        rcases mem_jsMapSet hkv with hk | hk
        · rw [hk]
          exact Or.inl ⟨f', hfmem, hfint⟩
        · exact IdOk_mono (hmap kv hk)
      · intro kv hkv i hi
        exact IdOk_mono (hspec.2 kv hkv i hi)
      · intro g hg
        rcases List.mem_append.mp hg with hg1 | hg1
        · exact POk_mono (hout g hg1)
        · have hge : g = f' := by simpa using hg1
          subst hge
          by_cases hr : ipid = Ident.root
          · left
            subst hr
            simp [hf', createFolderWithInternalIds]
          · rcases hipid with hr2 | hok
            · exact absurd hr2 hr
            · have hp : f'.internal_parent_folder_id = some ipid := by
                simp [hf', createFolderWithInternalIds,
                  show (ipid == Ident.root) = false by simpa using hr]
              exact Or.inr (Or.inr ⟨ipid, hp, IdOk_mono hok⟩)
    · next cache' heq =>
      simp only
      apply ih
      have hspec := resolveParentId_spec env (remoteParentKey x) st.idMap st.cache
        st.output hmap hcache
      rw [heq] at hspec
      exact ⟨hmap, fun kv hkv i hi => hspec.2 kv hkv i hi, hout⟩

theorem fallbackStep_links (env : Env) (rf : List (String × GFolder)) (wf : Nat)
    (acc : ResolveState) (folder : GFolder) (inv : LinksInv env acc) :
    LinksInv env (fallbackStep env rf wf acc folder) := by
  obtain ⟨hmap, hcache, hout⟩ := inv
  have hfields := getInternalParentRecursive_fields env rf wf folder [] acc
  have hspec := getInternalParentRecursive_spec env rf acc.output wf folder [] acc
    hmap hcache
  unfold fallbackStep
  simp only
  set p := getInternalParentRecursive env rf wf folder [] acc with hp
  set newf : GFolder :=
    { folder with
      internal_parent_folder_id := p.1,
      internal_id := some (Ident.minted p.2.ctr) } with hnewf
  have houtp : p.2.output = acc.output := hfields.2.1
  have hmapp : p.2.idMap = acc.idMap := hfields.1
  have hnewmem : newf ∈ p.2.output ++ [newf] :=
    List.mem_append_right _ (List.mem_singleton.mpr rfl)
  refine ⟨?_, ?_, ?_⟩
  · intro kv hkv
    simp only at hkv
    rcases mem_jsMapSet hkv with hk | hk
    · rw [hk]
      exact Or.inl ⟨newf, hnewmem, rfl⟩
    · rw [hmapp] at hk
      rw [houtp]
      exact IdOk_mono (hmap kv hk)
  · intro kv hkv i hi
    rw [houtp]
    exact IdOk_mono (hspec.2 kv hkv i hi)
  · intro g hg
    simp only at hg
    rcases List.mem_append.mp hg with hg1 | hg1
    · rw [houtp] at hg1 ⊢
      exact POk_mono (hout g hg1)
    · have hge : g = newf := by simpa using hg1
      subst hge
      have hgp : newf.internal_parent_folder_id = p.1 := rfl
      cases hp1 : p.1 with
      | none => exact Or.inl (by rw [hgp, hp1])
      | some i =>
        rcases hspec.1 i hp1 with hr | hok
        · subst hr
          exact Or.inr (Or.inl (by rw [hgp, hp1]))
        · refine Or.inr (Or.inr ⟨i, by rw [hgp, hp1], ?_⟩)
          rw [houtp]
          exact IdOk_mono hok

theorem foldl_fallbackStep_links (env : Env) (rf : List (String × GFolder))
    (wf : Nat) :
    ∀ (l : List GFolder) (st : ResolveState), LinksInv env st →
      LinksInv env (l.foldl (fallbackStep env rf wf) st) := by
  intro l
  induction l with
  | nil => intro st h; exact h
  | cons x rest ih =>
    intro st h
    simp only [List.foldl_cons]
    exact ih _ (fallbackStep_links env rf wf st x h)

theorem handleUnresolvedFolders_links (env : Env) (pending : List GFolder)
    (st : ResolveState) (inv : LinksInv env st) :
    LinksInv env (handleUnresolvedFolders env pending st) := by
  unfold handleUnresolvedFolders
  simp only
  apply foldl_fallbackStep_links
  exact inv

theorem processLoop_links (env : Env) :
    ∀ (fuel : Nat) (remaining : List GFolder) (st : ResolveState),
      LinksInv env st → LinksInv env (processLoop env fuel remaining st) := by
  intro fuel
  induction fuel with
  | zero => intro remaining st h; exact h
  | succ n ih =>
    intro remaining st h
    simp only [processLoop]
    split
    · exact h
    · split
      · exact handleUnresolvedFolders_links env _ _ (processPass_links env _ _ h)
      · exact ih _ _ (processPass_links env _ _ h)

/-- When the store holds no row for the connection, every store lookup for
that connection is negative, whatever rows other connections may have. -/
theorem findFolder_none_of_conn {db : List FsFolderRow} {cid : String}
    (h : ∀ r ∈ db, r.id_connection ≠ cid) (rid : String) :
    findFolder db rid cid = none := by
  unfold findFolder
  have hf : db.find? (fun r => r.remote_id == rid && r.id_connection == cid) =
      none := by
    apply List.find?_eq_none.mpr
    intro r hr
    simp only [Bool.and_eq_true, beq_iff_eq, not_and]
    exact fun _ => h r hr
  simp [hf]

/-- A parent link points below position `n`: null, the root marker, or a
minted id strictly smaller than `n`. -/
def PLt (p : Option Ident) (n : Nat) : Prop :=
  p = none ∨ p = some Ident.root ∨ ∃ j, j < n ∧ p = some (Ident.minted j)

/-- Invariant of a run whose connection has no persisted folders (other
connections' rows do not matter): output entity `i` carries the `i`-th
minted id and a parent link strictly below `i`; the id map holds only
already-minted ids and the cache only negative lookups. -/
def MintInv (st : ResolveState) : Prop :=
  st.ctr = st.output.length ∧
  (∀ (i : Nat) (h : i < st.output.length),
    (st.output[i]).internal_id = some (Ident.minted i) ∧
    PLt (st.output[i]).internal_parent_folder_id i) ∧
  (∀ kv ∈ st.idMap, ∃ j, j < st.ctr ∧ kv.2 = Ident.minted j) ∧
  (∀ kv ∈ st.cache, kv.2 = none)

theorem resolveParentId_empty (env : Env)
    (hdb : ∀ r ∈ env.db, r.id_connection ≠ env.connectionId) (pid : String)
    (idMap : List (String × Ident)) (cache : List (String × Option Ident)) (ctr : Nat)
    (hmap : ∀ kv ∈ idMap, ∃ j, j < ctr ∧ kv.2 = Ident.minted j)
    (hcache : ∀ kv ∈ cache, kv.2 = none) :
    (∀ i, (resolveParentId env.db env.connectionId pid idMap env.driveIds cache).1 =
        some i → i = Ident.root ∨ ∃ j, j < ctr ∧ i = Ident.minted j) ∧
    (∀ kv ∈ (resolveParentId env.db env.connectionId pid idMap env.driveIds cache).2,
        kv.2 = none) := by
  cases h1 : jsMapGet idMap pid with
  | some v =>
    simp only [resolveParentId, h1]
    refine ⟨?_, hcache⟩
    intro i hi
    have hvi : v = i := by simpa using hi
    obtain ⟨j, hj, hv⟩ := hmap (pid, v) (jsMapGet_mem h1)
    exact Or.inr ⟨j, hj, by rw [← hvi]; exact hv⟩
  | none =>
    by_cases h2 : (env.driveIds.contains pid || pid == "root") = true
    · simp only [resolveParentId, h1, if_pos h2]
      exact ⟨fun i hi => Or.inl (by simpa using hi.symm), hcache⟩
    · cases h3 : jsMapGet cache pid with
      | some cached =>
        simp only [resolveParentId, h1, if_neg h2, h3]
        refine ⟨?_, hcache⟩
        intro i hi
        have hnone := hcache (pid, cached) (jsMapGet_mem h3)
        simp only at hnone
        rw [hnone] at hi
        cases hi
      | none =>
        simp only [resolveParentId, h1, if_neg h2, h3]
        have hff : findFolder env.db pid env.connectionId = none :=
          findFolder_none_of_conn hdb pid
        refine ⟨?_, ?_⟩
        · intro i hi
          rw [hff] at hi
          cases hi
        · intro kv hkv
          rw [hff] at hkv
          rcases mem_jsMapSet hkv with hk | hk
          · rw [hk]
            rfl
          · exact hcache kv hk

theorem getInternalParentRecursive_empty (env : Env) (rf : List (String × GFolder))
    (hdb : ∀ r ∈ env.db, r.id_connection ≠ env.connectionId) (ctr : Nat) :
    ∀ (fuel : Nat) (folder : GFolder) (visited : List String) (st : ResolveState),
      (∀ kv ∈ st.idMap, ∃ j, j < ctr ∧ kv.2 = Ident.minted j) →
      (∀ kv ∈ st.cache, kv.2 = none) →
      (∀ i, (getInternalParentRecursive env rf fuel folder visited st).1 = some i →
        i = Ident.root ∨ ∃ j, j < ctr ∧ i = Ident.minted j) ∧
      (∀ kv ∈ (getInternalParentRecursive env rf fuel folder visited st).2.cache,
        kv.2 = none) := by
  intro fuel
  induction fuel with
  | zero =>
    intro folder visited st _ hcache
    exact ⟨fun i hi => (by cases hi), hcache⟩
  | succ n ih =>
    intro folder visited st hmap hcache
    have hspec := resolveParentId_empty env hdb (remoteParentKey folder) st.idMap
      st.cache ctr hmap hcache
    simp only [getInternalParentRecursive]
    split
    · exact ⟨fun i hi => (by cases hi), hcache⟩
    · split
      · next v heq =>
        refine ⟨?_, hspec.2⟩
        intro i hi
        have hvi : v = i := by simpa using hi
        exact hvi ▸ hspec.1 v heq
      · split
        · exact ih _ _ _ hmap hspec.2
        · split
          · exact ih _ _ _ hmap hspec.2
          · exact ⟨fun i hi => (by cases hi), hspec.2⟩

theorem processPass_mint (env : Env)
    (hdb : ∀ r ∈ env.db, r.id_connection ≠ env.connectionId) :
    ∀ (l : List GFolder) (st : ResolveState), MintInv st →
      MintInv (processPass env l st).2 := by
  intro l
  induction l with
  | nil => intro st h; exact h
  | cons x rest ih =>
    intro st inv
    obtain ⟨hctr, hidx, hmap, hcache⟩ := inv
    simp only [processPass]
    split
    · next ipid cache' heq =>
      apply ih
      have hspec := resolveParentId_empty env hdb (remoteParentKey x) st.idMap
        st.cache st.ctr hmap hcache
      rw [heq] at hspec
      have hipid := hspec.1 ipid rfl
      have hgid : getIntenalIdForFolder env.db env.connectionId x.id st.ctr =
          (Ident.minted st.ctr, st.ctr + 1) := by
        unfold getIntenalIdForFolder
        rw [findFolder_none_of_conn hdb]
      set f' := createFolderWithInternalIds x ipid
        (getIntenalIdForFolder env.db env.connectionId x.id st.ctr).1 with hf'
      have hfint : f'.internal_id = some (Ident.minted st.ctr) := by
        rw [hf', hgid]; rfl
      refine ⟨?_, ?_, ?_, ?_⟩
      · simp only [hgid]
        simp [hctr]
      · intro i h
        simp only [List.length_append, List.length_singleton] at h
        by_cases hi : i < st.output.length
        · have hget : (st.output ++ [f'])[i] = st.output[i] :=
            List.getElem_append_left hi
          rw [hget]
          exact hidx i hi
        · have hieq : i = st.output.length := by omega
          have hget : (st.output ++ [f'])[i] = f' :=
            List.getElem_concat_length _ _ _ hieq _
          rw [hget]
          constructor
          · rw [hfint, hieq, hctr]
          · by_cases hr : ipid = Ident.root
            · left
              rw [hf', hr]
              simp [createFolderWithInternalIds]
            · rcases hipid with h1 | ⟨j, hj, h1⟩
              · exact absurd h1 hr
              · right; right
                refine ⟨j, by omega, ?_⟩
                rw [hf']
                simp [createFolderWithInternalIds,
                  show (ipid == Ident.root) = false by simpa using hr, h1]
      · intro kv hkv
        rcases mem_jsMapSet hkv with hk | hk
        · refine ⟨st.ctr, ?_, ?_⟩
          · simp only [hgid]; omega
          · rw [hk]; simp only [hgid]
        · obtain ⟨j, hj, hv⟩ := hmap kv hk
          refine ⟨j, ?_, hv⟩
          simp only [hgid]
          omega
      · exact hspec.2
    · next cache' heq =>
      simp only
      apply ih
      have hspec := resolveParentId_empty env hdb (remoteParentKey x) st.idMap
        st.cache st.ctr hmap hcache
      rw [heq] at hspec
      exact ⟨hctr, hidx, hmap, hspec.2⟩

theorem fallbackStep_mint (env : Env) (rf : List (String × GFolder)) (wf : Nat)
    (hdb : ∀ r ∈ env.db, r.id_connection ≠ env.connectionId)
    (acc : ResolveState) (folder : GFolder)
    (inv : MintInv acc) : MintInv (fallbackStep env rf wf acc folder) := by
  obtain ⟨hctr, hidx, hmap, hcache⟩ := inv
  have hfields := getInternalParentRecursive_fields env rf wf folder [] acc
  have hspec := getInternalParentRecursive_empty env rf hdb acc.ctr wf folder [] acc
    hmap hcache
  have houtp : (getInternalParentRecursive env rf wf folder [] acc).2.output =
      acc.output := hfields.2.1
  have hctrp : (getInternalParentRecursive env rf wf folder [] acc).2.ctr =
      acc.ctr := hfields.2.2.1
  have hmapp : (getInternalParentRecursive env rf wf folder [] acc).2.idMap =
      acc.idMap := hfields.1
  unfold fallbackStep
  simp only
  rw [houtp, hctrp, hmapp]
  set newf : GFolder :=
    { folder with
      internal_parent_folder_id := (getInternalParentRecursive env rf wf folder [] acc).1,
      internal_id := some (Ident.minted acc.ctr) } with hnewf
  refine ⟨?_, ?_, ?_, ?_⟩
  · simp [hctr]
  · intro i h
    simp only [List.length_append, List.length_singleton] at h
    by_cases hi : i < acc.output.length
    · have hget : (acc.output ++ [newf])[i] = acc.output[i] :=
        List.getElem_append_left hi
      rw [hget]
      exact hidx i hi
    · have hieq : i = acc.output.length := by omega
      have hget : (acc.output ++ [newf])[i] = newf :=
        List.getElem_concat_length _ _ _ hieq _
      rw [hget]
      constructor
      · show some (Ident.minted acc.ctr) = some (Ident.minted i)
        rw [hctr, hieq]
      · cases hp1 : (getInternalParentRecursive env rf wf folder [] acc).1 with
        | none =>
          left
          show (getInternalParentRecursive env rf wf folder [] acc).1 = none
          exact hp1
        | some v =>
          rcases hspec.1 v hp1 with hr | ⟨j, hj, hv⟩
          · right; left
            show (getInternalParentRecursive env rf wf folder [] acc).1 =
              some Ident.root
            rw [hp1, hr]
          · right; right
            refine ⟨j, by omega, ?_⟩
            show (getInternalParentRecursive env rf wf folder [] acc).1 =
              some (Ident.minted j)
            rw [hp1, hv]
  · intro kv hkv
    rcases mem_jsMapSet hkv with hk | hk
    · refine ⟨acc.ctr, ?_, ?_⟩
      · exact Nat.lt_succ_self _
      · rw [hk]
    · obtain ⟨j, hj, hv⟩ := hmap kv hk
      exact ⟨j, Nat.lt_succ_of_lt hj, hv⟩
  · exact hspec.2

theorem foldl_fallbackStep_mint (env : Env) (rf : List (String × GFolder))
    (wf : Nat) (hdb : ∀ r ∈ env.db, r.id_connection ≠ env.connectionId) :
    ∀ (l : List GFolder) (st : ResolveState), MintInv st →
      MintInv (l.foldl (fallbackStep env rf wf) st) := by
  intro l
  induction l with
  | nil => intro st h; exact h
  | cons x rest ih =>
    intro st h
    simp only [List.foldl_cons]
    exact ih _ (fallbackStep_mint env rf wf hdb st x h)

theorem handleUnresolvedFolders_mint (env : Env) (pending : List GFolder)
    (st : ResolveState) (hdb : ∀ r ∈ env.db, r.id_connection ≠ env.connectionId)
    (inv : MintInv st) :
    MintInv (handleUnresolvedFolders env pending st) := by
  unfold handleUnresolvedFolders
  simp only
  apply foldl_fallbackStep_mint env _ _ hdb
  exact inv

theorem processLoop_mint (env : Env)
    (hdb : ∀ r ∈ env.db, r.id_connection ≠ env.connectionId) :
    ∀ (fuel : Nat) (remaining : List GFolder) (st : ResolveState),
      MintInv st → MintInv (processLoop env fuel remaining st) := by
  intro fuel
  induction fuel with
  | zero => intro remaining st h; exact h
  | succ n ih =>
    intro remaining st h
    simp only [processLoop]
    split
    · exact h
    · split
      · exact handleUnresolvedFolders_mint env _ _ hdb (processPass_mint env hdb _ _ h)
      · exact ih _ _ (processPass_mint env hdb _ _ h)

/-- The minted index of an output entity. -/
def mintRank (f : GFolder) : Nat :=
  match f.internal_id with
  | some (Ident.minted n) => n
  | _ => 0

theorem parentOf_rank {out : List GFolder}
    (hidx : ∀ (i : Nat) (h : i < out.length),
      (out[i]).internal_id = some (Ident.minted i) ∧
      PLt (out[i]).internal_parent_folder_id i)
    {a b : GFolder} (hab : parentOf out a b) : mintRank b < mintRank a := by
  obtain ⟨ha, hb, i, hpa, hbi⟩ := hab
  obtain ⟨ia, hia, hga⟩ := List.mem_iff_getElem.mp ha
  obtain ⟨ib, hib, hgb⟩ := List.mem_iff_getElem.mp hb
  have hca := hidx ia hia
  have hcb := hidx ib hib
  rw [hga] at hca
  rw [hgb] at hcb
  have hi : i = Ident.minted ib := by
    rw [hcb.1] at hbi
    exact (Option.some.inj hbi).symm
  have hrb : mintRank b = ib := by
    rw [mintRank, hcb.1]
  have hra : mintRank a = ia := by
    rw [mintRank, hca.1]
  rcases hca.2 with h1 | h1 | ⟨j, hj, h1⟩
  · rw [hpa] at h1
    cases h1
  · rw [hpa] at h1
    have : i = Ident.root := Option.some.inj h1
    rw [hi] at this
    cases this
  · rw [hpa] at h1
    have hij : i = Ident.minted j := Option.some.inj h1
    rw [hi] at hij
    have hjb : ib = j := Ident.minted.inj hij
    rw [hra, hrb, hjb]
    exact hj

theorem transGen_rank {r : GFolder → GFolder → Prop}
    (hr : ∀ x y, r x y → mintRank y < mintRank x) {a b : GFolder}
    (h : Relation.TransGen r a b) : mintRank b < mintRank a := by
  induction h with
  | single h1 => exact hr _ _ h1
  | tail _ h2 ih => exact lt_trans (hr _ _ h2) ih

/-- C1 (amended): after any resolution run, each entity's
`internal_parent_folder_id` is null, the literal `'root'` marker (which the
fallback path can leak unconverted), the internal id of an entity of the
output, or the internal id of a folder persisted for the same connection;
and on runs whose connection has no persisted folders in the store (rows
of other connections may be present; resolution is then purely
batch-internal for this connection) no entity is its own ancestor.  (The
counterexample shows both restrictions are necessary: the fallback leaks
the `'root'` marker, and store-mediated resolution of remotely-cyclic data
can make an entity its own ancestor.) -/
theorem resolution_parent_links (env : Env) (folders : List GFolder) :
    (∀ f ∈ (processFoldersWithParents env folders).output,
      f.internal_parent_folder_id = none ∨
      f.internal_parent_folder_id = some Ident.root ∨
      (∃ g ∈ (processFoldersWithParents env folders).output, ∃ i,
        f.internal_parent_folder_id = some i ∧ g.internal_id = some i) ∨
      (∃ r ∈ env.db, r.id_connection = env.connectionId ∧
        f.internal_parent_folder_id = some (Ident.stored r.id_fs_folder)))
    ∧ ((∀ r ∈ env.db, r.id_connection ≠ env.connectionId) →
        ∀ f ∈ (processFoldersWithParents env folders).output,
        ¬ ownAncestor (processFoldersWithParents env folders).output f) := by
  constructor
  · have inv := processLoop_links env (folders.length + 1) folders initResolveState
      ⟨fun kv hkv => (by cases hkv), fun kv hkv => (by cases hkv),
        fun f hf => (by cases hf)⟩
    intro f hf
    rcases inv.2.2 f hf with h1 | h1 | ⟨i, hi, hok⟩
    · exact Or.inl h1
    · exact Or.inr (Or.inl h1)
    · rcases hok with ⟨g, hg, hgi⟩ | ⟨r, hr, hrc, hri⟩
      · exact Or.inr (Or.inr (Or.inl ⟨g, hg, i, hi, hgi⟩))
      · exact Or.inr (Or.inr (Or.inr ⟨r, hr, hrc, by rw [hi, hri]⟩))
  · intro hconn f hf hanc
    have minv := processLoop_mint env hconn (folders.length + 1) folders
      initResolveState
      ⟨rfl, fun i h => (by cases h), fun kv hkv => (by cases hkv),
        fun kv hkv => (by cases hkv)⟩
    have hidx := minv.2.1
    have hlt := transGen_rank (fun x y hxy => parentOf_rank hidx hxy) hanc
    exact lt_irrefl _ hlt

def rowOtherConn : FsFolderRow :=
  { remote_id := "A", id_connection := "c2", id_fs_folder := "idA2",
    remote_modified_at := 0 }

def envC1W : Env :=
  { db := [rowOtherConn], connectionId := "c", driveIds := ["d"], provider := [] }

def fC1W : GFolder :=
  { mkFolder "A" [] with
    internal_id := some (Ident.minted 0),
    internal_parent_folder_id := none }

theorem resolution_parent_links_witness :
    ¬ ownAncestor (processFoldersWithParents envC1W [mkFolder "A" []]).output fC1W :=
  (resolution_parent_links envC1W [mkFolder "A" []]).2 (by decide) fC1W (by decide)

end Panora
